import Mathlib

/-!
Verification of the idiota version-control engine (files `idiota/data.py` and
`idiota/base.py`) against its natural-language specification.  Python strings
are modelled as lists of characters, the file system and object store as
association lists with dictionary-style update, and the SHA-1 hex digest as an
abstract function parameter.  Recursions that Python performs on mutable
structures without a termination guarantee (symbolic-reference chains, commit
graph walks, nested trees read back from the store) take an explicit fuel
argument.
-/

namespace Idiota

/-- Equality on `Except` results is decidable (needed to evaluate the model
on concrete repositories). -/
instance {ε α : Type} [DecidableEq ε] [DecidableEq α] : DecidableEq (Except ε α) :=
  fun a b =>
    match a, b with
    | .ok x, .ok y =>
      match decEq x y with
      | .isTrue h => .isTrue (by rw [h])
      | .isFalse h => .isFalse (by intro hc; cases hc; exact h rfl)
    | .error x, .error y =>
      match decEq x y with
      | .isTrue h => .isTrue (by rw [h])
      | .isFalse h => .isFalse (by intro hc; cases hc; exact h rfl)
    | .ok _, .error _ => .isFalse (by intro hc; cases hc)
    | .error _, .ok _ => .isFalse (by intro hc; cases hc)

/-- Python strings (sequences of code points). -/
abbrev Str := List Char

/-- A file system or object store: association list from path to content. -/
abbrev Store := List (Str × Str)

/-- Dictionary / file lookup. -/
def alookup {β : Type} : List (Str × β) → Str → Option β
  | [], _ => none
  | (k', v) :: rest, k => if k' = k then some v else alookup rest k

/-- Dictionary write / file write: replace the binding in place when the key
is present, append otherwise (Python `d[k] = v`, and overwriting a file). -/
def aset {β : Type} : List (Str × β) → Str → β → List (Str × β)
  | [], k, v => [(k, v)]
  | (k', v') :: rest, k, v =>
    if k' = k then (k, v) :: rest else (k', v') :: aset rest k v

/-- Python `d.update(e)`: set every binding of `e` in `d`, in order. -/
def aupdate {β : Type} (d : List (Str × β)) (e : List (Str × β)) : List (Str × β) :=
  e.foldl (fun a p => aset a p.1 p.2) d

/-- File removal (`os.remove`). -/
def aerase {β : Type} : List (Str × β) → Str → List (Str × β)
  | [], _ => []
  | (k', v') :: rest, k => if k' = k then rest else (k', v') :: aerase rest k

/-- Split at the first occurrence of `c` (Python `s.split(c, 1)` when it has
two parts; `none` when `c` does not occur). -/
def splitFirst (c : Char) : Str → Option (Str × Str)
  | [] => none
  | d :: rest =>
    if d = c then some ([], rest)
    else
      match splitFirst c rest with
      | none => none
      | some (l, r) => some (d :: l, r)

/-- Python `s.split(sep)` for a one-character separator: keeps empty parts,
always returns at least one part. -/
def pySplitOn (c : Char) : Str → List Str
  | [] => [[]]
  | d :: rest =>
    let l := pySplitOn c rest
    if d = c then [] :: l else (d :: l.headI) :: l.tail

/-- The line-boundary characters recognised by Python `str.splitlines`. -/
def lineBreakChars : Str :=
  ['\n', '\r', Char.ofNat 11, Char.ofNat 12, Char.ofNat 28, Char.ofNat 29,
   Char.ofNat 30, Char.ofNat 133, Char.ofNat 8232, Char.ofNat 8233]

def isLineBreak (c : Char) : Bool := lineBreakChars.contains c

/-- Worker for `pySplitLines`; `line` holds the current line reversed. -/
def pySplitLinesGo (line : Str) : Str → List Str
  | [] => if line = [] then [] else [line.reverse]
  | '\r' :: '\n' :: rest => line.reverse :: pySplitLinesGo [] rest
  | c :: rest =>
    if isLineBreak c then line.reverse :: pySplitLinesGo [] rest
    else pySplitLinesGo (c :: line) rest

/-- Python `str.splitlines`. -/
def pySplitLines (s : Str) : List Str := pySplitLinesGo [] s

/-- The characters stripped by Python `str.strip()`. -/
def isPySpace (c : Char) : Bool :=
  c = ' ' ∨ c = '\t' ∨ c = '\n' ∨ c = '\r' ∨ c = Char.ofNat 11 ∨ c = Char.ofNat 12

/-- Python `str.strip()`. -/
def pyStrip (s : Str) : Str :=
  ((s.dropWhile isPySpace).reverse.dropWhile isPySpace).reverse

/-- Python `'\n'.join(lines)`. -/
def joinLines (ls : List Str) : Str := List.intercalate ['\n'] ls

/-- Python hex digits (`string.hexdigits`). -/
def pyIsHex (c : Char) : Bool := "0123456789abcdefABCDEF".toList.contains c

/-- The NUL byte separating the kind tag from the content of a stored object. -/
def nul : Char := Char.ofNat 0

/-! ## data.py -/

/-- `data.hash_object`: store `type || 0x00 || data` under the digest of that
buffer and return the digest.  `hash` abstracts `hashlib.sha1(..).hexdigest()`. -/
def hash_object (hash : Str → Str) (st : Store) (dat : Str) (type_ : Str) :
    Str × Store :=
  let obj := type_ ++ nul :: dat
  let oid := hash obj
  (oid, aset st oid obj)

/-- `data.get_object`: read the stored buffer, split at the first NUL into
kind tag and content, check the tag against `expected` when given. -/
def get_object (st : Store) (oid : Str) (expected : Option Str) : Except String Str :=
  match alookup st oid with
  | none => .error "FileNotFoundError"
  | some obj =>
    match splitFirst nul obj with
    | none => .error "ValueError"
    | some (ty, content) =>
      match expected with
      | none => .ok content
      | some exp => if ty = exp then .ok content else .error "AssertionError: kind"

/-- `data.object_exists`. -/
def object_exists (st : Store) (oid : Str) : Bool := (alookup st oid).isSome

/-- `data.RefValue`. -/
structure RefValue where
  symbolic : Bool
  value : Option Str
deriving DecidableEq, Repr

/-- `data._get_ref_internal`: read the ref file (missing file gives a `none`
value), strip it, recognise `ref:`-values as symbolic and either return or
dereference recursively.  The fuel bounds the symbolic chain length. -/
def get_ref_internal (refs : Store) : Nat → Str → Bool → Except String (Str × RefValue)
  | 0, _, _ => .error "RecursionError"
  | fuel + 1, ref, deref =>
    match (alookup refs ref).map pyStrip with
    | none => .ok (ref, ⟨false, none⟩)
    | some v =>
      if "ref:".toList.isPrefixOf v then
        match splitFirst ':' v with
        | some (_, post) =>
          let tgt := pyStrip post
          if deref then get_ref_internal refs fuel tgt true
          else .ok (ref, ⟨true, some tgt⟩)
        | none => .error "IndexError"
      else .ok (ref, ⟨false, some v⟩)

/-- `data.get_ref`. -/
def get_ref (refs : Store) (fuel : Nat) (ref : Str) (deref : Bool) :
    Except String RefValue :=
  (get_ref_internal refs fuel ref deref).map (·.2)

/-- `data.update_ref`: resolve the storage location, require a truthy direct
value, format symbolic values as `ref: <name>`, write the file. -/
def update_ref (refs : Store) (fuel : Nat) (ref : Str) (v : RefValue)
    (deref : Bool) : Except String Store := do
  let (loc, _) ← get_ref_internal refs fuel ref deref
  match v.value with
  | none => .error "AssertionError: value"
  | some val =>
    if val = [] then .error "AssertionError: value"
    else
      let content := if v.symbolic then "ref: ".toList ++ val else val
      .ok (aset refs loc content)

/-- `data.delete_ref`. -/
def delete_ref (refs : Store) (fuel : Nat) (ref : Str) (deref : Bool) :
    Except String Store := do
  let (loc, _) ← get_ref_internal refs fuel ref deref
  if (alookup refs loc).isSome then .ok (aerase refs loc)
  else .error "FileNotFoundError"

/-- `data.iter_refs`: enumerate `HEAD`, `MERGE_HEAD` and every stored ref under
`refs/`, filter by prefix, resolve each, and keep those with a truthy value. -/
def iter_refs (refs : Store) (fuel : Nat) (pfx : Str) (deref : Bool) :
    Except String (List (Str × RefValue)) := do
  let names := "HEAD".toList :: "MERGE_HEAD".toList ::
    (refs.map Prod.fst).filter (fun n => "refs/".toList.isPrefixOf n)
  let cands := names.filter (fun n => pfx.isPrefixOf n)
  cands.foldlM (fun acc n => do
    let r ← get_ref refs fuel n deref
    match r.value with
    | some v => if v = [] then pure acc else pure (acc ++ [(n, r)])
    | none => pure acc) []

/-- `data.get_index` as a scoped-resource combinator: load the index, run the
body (which returns its result together with the final in-memory index), and
persist that index only when the body completes normally — the generator-based
context manager has no try/finally, so a raising body skips the dump and the
stored index keeps its previous contents. -/
def get_index_run {α : Type} (idx : List (Str × Str))
    (body : List (Str × Str) → Except String α × List (Str × Str)) :
    Except String α × List (Str × Str) :=
  match body idx with
  | (.ok a, idx') => (.ok a, idx')
  | (.error e, _) => (.error e, idx)

/-- `data.change_git_dir`: the metadata directory the repository itself uses. -/
def change_git_dir (new_dir : Str) : Str := new_dir ++ "/.idiota".toList

/-- `data.fetch_object_if_missing` over a path-keyed file system: no-op when
the object exists locally, otherwise copy it from the remote's `.ugit`
metadata directory. -/
def fetch_object_if_missing (fs : Store) (gitDir oid remote : Str) :
    Except String Store :=
  if (alookup fs (gitDir ++ "/objects/".toList ++ oid)).isSome then .ok fs
  else
    let rdir := remote ++ "/.ugit".toList
    match alookup fs (rdir ++ "/objects/".toList ++ oid) with
    | none => .error "FileNotFoundError"
    | some content =>
      .ok (aset fs (gitDir ++ "/objects/".toList ++ oid) content)

/-- `data.push_object`: copy the local object file into the remote's `.ugit`
metadata directory. -/
def push_object (fs : Store) (gitDir oid remote : Str) : Except String Store :=
  let rdir := remote ++ "/.ugit".toList
  match alookup fs (gitDir ++ "/objects/".toList ++ oid) with
  | none => .error "FileNotFoundError"
  | some content => .ok (aset fs (rdir ++ "/objects/".toList ++ oid) content)

/-! ## base.py -/

/-- `base.is_ignored`. -/
def is_ignored (path : Str) : Bool := (pySplitOn '/' path).contains ".idiota".toList

mutual

/-- The nested dictionary `write_tree` builds from the flat index: a value is
either a blob id or a subdirectory. -/
inductive TVal where
  | blob (oid : Str)
  | dir (entries : TEntries)

/-- One directory level of the nested dictionary, in insertion order. -/
inductive TEntries where
  | nil
  | cons (name : Str) (v : TVal) (rest : TEntries)

end

/-- Dictionary lookup on one directory level. -/
def elookup : TEntries → Str → Option TVal
  | .nil, _ => none
  | .cons n v rest, k => if n = k then some v else elookup rest k

/-- Dictionary write on one directory level: replace in place or append. -/
def eset : TEntries → Str → TVal → TEntries
  | .nil, k, v => .cons k v .nil
  | .cons n v0 rest, k, v =>
    if n = k then .cons k v rest else .cons n v0 (eset rest k v)

/-- One index entry folded into the nested dictionary, following the
`setdefault` walk of `write_tree`: descend through directory segments,
creating empty subdirectories as needed; meeting a blob where a directory is
needed raises (in Python, `AttributeError`/`TypeError` on the string); the
final segment is assigned unconditionally, overwriting any previous value. -/
def insertPath : TEntries → List Str → Str → Except String TEntries
  | t, [name], oid => .ok (eset t name (.blob oid))
  | t, seg :: rest, oid =>
    match elookup t seg with
    | some (.dir sub) => do
      let sub' ← insertPath sub rest oid
      .ok (eset t seg (.dir sub'))
    | some (.blob _) => .error "TypeError"
    | none => do
      let sub' ← insertPath .nil rest oid
      .ok (eset t seg (.dir sub'))
  | _, [], _ => .error "ValueError"

/-- The `index_as_tree` construction at the top of `base.write_tree`. -/
def index_as_tree (index : List (Str × Str)) : Except String TEntries :=
  index.foldlM (fun t p => insertPath t (pySplitOn '/' p.1) p.2) .nil

/-- Python string `<` (lexicographic on code points). -/
def strLTb : Str → Str → Bool
  | [], [] => false
  | [], _ :: _ => true
  | _ :: _, [] => false
  | a :: as, b :: bs => if a < b then true else if b < a then false else strLTb as bs

/-- A tree entry as sorted: `(name, oid, type)`. -/
abbrev Entry3 := Str × Str × Str

/-- Python tuple `<=` on `(name, oid, type)` triples, used by `sorted`:
lexicographic, comparing the name, then the id, then the kind. -/
def entryLEb (x y : Entry3) : Bool :=
  if x.1 = y.1 then
    if x.2.1 = y.2.1 then ! strLTb y.2.2 x.2.2
    else strLTb x.2.1 y.2.1
  else strLTb x.1 y.1

/-- The line `f'{type_} {oid} {name}\n'` of a serialized tree. -/
def entryLine (e : Entry3) : Str := e.2.2 ++ ' ' :: e.2.1 ++ ' ' :: e.1 ++ ['\n']

/-- Insert into a sorted list, before the first element that is not below the
new one — the stable ascending order of Python `sorted`. -/
def insSorted {α : Type} (le : α → α → Bool) (x : α) : List α → List α
  | [] => [x]
  | y :: rest => if le x y then x :: y :: rest else y :: insSorted le x rest

/-- Stable insertion sort, modelling Python `sorted`. -/
def pySorted {α : Type} (le : α → α → Bool) : List α → List α
  | [] => []
  | x :: rest => insSorted le x (pySorted le rest)

/-- The tree content built by `write_tree_recursive`: one line per entry, in
`sorted` order of the `(name, oid, type)` tuples. -/
def serializeEntries (es : List Entry3) : Str :=
  ((pySorted entryLEb es).map entryLine).flatten

mutual

/-- `write_tree_recursive`, value case: a blob contributes its id, a
subdirectory is written recursively first (entry triples computed, serialized
sorted, tree object stored). -/
def writeVal (hash : Str → Str) : TVal → Store → (Str × Str) × Store
  | .blob oid, st => ((oid, "blob".toList), st)
  | .dir entries, st =>
    let (es, st') := writeEntries hash entries st
    let (oid, st'') := hash_object hash st' (serializeEntries es) "tree".toList
    ((oid, "tree".toList), st'')

/-- The entry loop of `write_tree_recursive`. -/
def writeEntries (hash : Str → Str) : TEntries → Store → List Entry3 × Store
  | .nil, st => ([], st)
  | .cons name v rest, st =>
    let ((oid, ty), st') := writeVal hash v st
    let (es, st'') := writeEntries hash rest st'
    ((name, oid, ty) :: es, st'')

end

/-- `write_tree_recursive` on one directory level: compute the entry triples
(writing subtrees), serialize them sorted, store the tree object. -/
def writeDir (hash : Str → Str) (entries : TEntries) (st : Store) :
    Str × Store :=
  let (es, st') := writeEntries hash entries st
  hash_object hash st' (serializeEntries es) "tree".toList

/-- `base.write_tree`: fold the index into the nested dictionary and write it
out recursively, returning the root tree id. -/
def write_tree (hash : Str → Str) (index : List (Str × Str)) (st : Store) :
    Except String (Str × Store) := do
  let t ← index_as_tree index
  .ok (writeDir hash t st)

/-- One line of a tree object parsed by `_iter_tree_entries`:
`entry.split(' ', 2)` must yield exactly three parts `(type, oid, name)`. -/
def parseEntry (line : Str) : Except String (Str × Str × Str) :=
  match splitFirst ' ' line with
  | none => .error "ValueError: unpack"
  | some (ty, rest) =>
    match splitFirst ' ' rest with
    | none => .error "ValueError: unpack"
    | some (oid, name) => .ok (ty, oid, name)

/-- `base._iter_tree_entries`: empty for a falsy oid, otherwise read the tree
object and parse each line. -/
def iter_tree_entries (st : Store) (oid : Option Str) :
    Except String (List (Str × Str × Str)) :=
  match oid with
  | none => .ok []
  | some o =>
    if o = [] then .ok []
    else do
      let tree ← get_object st o (some "tree".toList)
      (pySplitLines tree).mapM parseEntry

/-- `base.get_tree`: expand a tree object to a flat path-to-blob mapping,
validating entry names; subtree results are merged with `dict.update`.  The
fuel bounds the nesting depth followed through the store. -/
def get_tree (st : Store) : Nat → Str → Str → Except String (List (Str × Str))
  | 0, _, _ => .error "RecursionError"
  | fuel + 1, oid, base => do
    let entries ← iter_tree_entries st (some oid)
    entries.foldlM (fun acc e => do
      let (ty, o, name) := e
      if '/' ∈ name then .error "AssertionError: sep"
      else if name = "..".toList ∨ name = ".".toList then .error "AssertionError: dots"
      else
        let path := base ++ name
        if ty = "blob".toList then .ok (aset acc path o)
        else if ty = "tree".toList then do
          let sub ← get_tree st fuel o (path ++ ['/'])
          .ok (aupdate acc sub)
        else .error "AssertionError: kind") []

/-- The whole repository state: object store (keyed by oid), ref store (keyed
by ref path), the persisted index file, and the working directory (keyed by
relative path). -/
structure Repo where
  objects : Store
  refs : Store
  index : List (Str × Str)
  working : Store
deriving DecidableEq, Repr

/-- `base._checkout_index`: empty the working directory of non-ignored files,
then materialize every index entry from its blob. -/
def checkout_index (objects : Store) (working : Store)
    (idx : List (Str × Str)) : Except String Store :=
  let kept := working.filter (fun p => is_ignored p.1)
  idx.foldlM (fun w p => do
    let c ← get_object objects p.2 (some "blob".toList)
    .ok (aset w p.1 c)) kept

/-- The body of `base.read_tree` as run under `get_index`: clear the index,
refill it from `get_tree`, optionally sync the working directory.  Returns the
new working directory and the final in-memory index. -/
def read_tree_body (objects working : Store) (fuel : Nat) (tree_oid : Str)
    (upd : Bool) : List (Str × Str) → Except String Store × List (Str × Str) :=
  fun _index =>
    match get_tree objects fuel tree_oid [] with
    | .error e => (.error e, [])
    | .ok m =>
      let idx1 := aupdate [] m
      if upd then
        match checkout_index objects working idx1 with
        | .error e => (.error e, idx1)
        | .ok w' => (.ok w', idx1)
      else (.ok working, idx1)

/-- `base.read_tree`: the body above run under the `get_index` context
manager; the pair holds the outcome and the repository state afterwards. -/
def read_tree (repo : Repo) (fuel : Nat) (tree_oid : Str) (upd : Bool) :
    Except String Unit × Repo :=
  match get_index_run repo.index
      (read_tree_body repo.objects repo.working fuel tree_oid upd) with
  | (.ok w', idx') => (.ok (), { repo with index := idx', working := w' })
  | (.error e, idx') => (.error e, { repo with index := idx' })

/-- Modelled from the spec: the inline conflict resolution of `diff.merge_blobs`
(file `diff.py`, absent from the sources) when both sides hold a blob — the
result delimits the head version and the other version with conflict
markers. -/
def merge_blobs_content (cHead cOther : Str) : Str :=
  "<<<<<<< HEAD\n".toList ++ cHead ++ "=======\n".toList ++ cOther ++
    ">>>>>>> other\n".toList

/-- Modelled from the spec: the per-path decision of the three-way merge in
`diff.merge_trees` (file `diff.py`, absent from the sources).  With `b`, `h`,
`o` the blob ids in base, head and other (absent = `none`): if head and other
agree take that value; else if only other changed take other's; else if only
head changed take head's; otherwise both changed — when both sides hold
blobs, store a new blob with both versions between conflict markers; when one
side deleted the path, the modified side's version is the resolution. -/
def merge_entry (hash : Str → Str) (objects : Store) (b h o : Option Str) :
    Except String (Option Str × Store) :=
  if h = o then .ok (h, objects)
  else if h = b then .ok (o, objects)
  else if o = b then .ok (h, objects)
  else
    match h, o with
    | some hOid, some oOid => do
      let ch ← get_object objects hOid (some "blob".toList)
      let co ← get_object objects oOid (some "blob".toList)
      let (m, objects') :=
        hash_object hash objects (merge_blobs_content ch co) "blob".toList
      .ok (some m, objects')
    | some hOid, none => .ok (some hOid, objects)
    | none, some oOid => .ok (some oOid, objects)
    | none, none => .ok (none, objects)

/-- Modelled from the spec: `diff.merge_trees` (file `diff.py`, absent from
the sources) — apply `merge_entry` to every distinct path across the union of
the three snapshots, collecting the paths whose merged value is present. -/
def dedupFirst : List Str → List Str
  | [] => []
  | x :: rest => x :: (dedupFirst rest).filter (fun y => y ≠ x)

def merge_trees (hash : Str → Str) (objects : Store)
    (t_base t_head t_other : List (Str × Str)) :
    Except String (List (Str × Str) × Store) := do
  let paths :=
    dedupFirst (t_base.map Prod.fst ++ t_head.map Prod.fst ++ t_other.map Prod.fst)
  paths.foldlM (fun (acc : List (Str × Str) × Store) p => do
    let (m, objs') ←
      merge_entry hash acc.2 (alookup t_base p) (alookup t_head p) (alookup t_other p)
    match m with
    | some v => .ok (acc.1 ++ [(p, v)], objs')
    | none => .ok (acc.1, objs')) ([], objects)

/-- The body of `base.read_tree_merged` as run under `get_index`: clear the
index, refill it from the three-way merge, optionally sync the working
directory.  Returns the new object store and working directory together with
the final in-memory index. -/
def read_tree_merged_body (hash : Str → Str) (objects working : Store)
    (fuel : Nat) (t_base t_head t_other : Str) (upd : Bool) :
    List (Str × Str) → Except String (Store × Store) × List (Str × Str) :=
  fun _index =>
    match (do
      let mb ← get_tree objects fuel t_base []
      let mh ← get_tree objects fuel t_head []
      let mo ← get_tree objects fuel t_other []
      merge_trees hash objects mb mh mo :
        Except String (List (Str × Str) × Store)) with
    | .error e => (.error e, [])
    | .ok (merged, objects') =>
      let idx1 := aupdate [] merged
      if upd then
        match checkout_index objects' working idx1 with
        | .error e => (.error e, idx1)
        | .ok w' => (.ok (objects', w'), idx1)
      else (.ok (objects', working), idx1)

/-- `base.read_tree_merged` under the `get_index` context manager. -/
def read_tree_merged (hash : Str → Str) (repo : Repo) (fuel : Nat)
    (t_base t_head t_other : Str) (upd : Bool) : Except String Unit × Repo :=
  match get_index_run repo.index
      (read_tree_merged_body hash repo.objects repo.working fuel
        t_base t_head t_other upd) with
  | (.ok (objs', w'), idx') =>
    (.ok (), { repo with objects := objs', index := idx', working := w' })
  | (.error e, idx') => (.error e, { repo with index := idx' })

/-- `base.Commit`. -/
structure Commit where
  tree : Str
  parents : List Str
  message : Str
deriving DecidableEq, Repr

/-- The header loop of `base.get_commit`: each line splits at the first space
into key and value; `tree` records the tree id; a `parent` line resets the
parent list to empty (the accumulated value is discarded, exactly as the
source does); any other key is an assertion failure. -/
def parseCommitHeader : List Str → Option Str → List Str →
    Except String (Option Str × List Str)
  | [], tree, parents => .ok (tree, parents)
  | line :: rest, tree, parents =>
    match splitFirst ' ' line with
    | none => .error "ValueError: unpack"
    | some (key, value) =>
      if key = "tree".toList then parseCommitHeader rest (some value) parents
      else if key = "parent".toList then
        let _ := value
        parseCommitHeader rest tree []
      else .error "AssertionError: field"

/-- `base.get_commit`: read the commit object, parse the header lines up to
the first blank line, and join the remaining lines as the message. -/
def get_commit (objects : Store) (oid : Str) : Except String Commit := do
  let content ← get_object objects oid (some "commit".toList)
  let lines := pySplitLines content
  let hdr := lines.takeWhile (fun l => l ≠ [])
  let rest := (lines.dropWhile (fun l => l ≠ [])).drop 1
  let (tree?, parents) ← parseCommitHeader hdr none []
  match tree? with
  | none => .error "NameError: tree"
  | some t => .ok ⟨t, parents, joinLines rest⟩

/-- `base.iter_commits_and_parents` forced to a list (as `get_merge_base`
does for its first argument): pop from the front, skip falsy or visited ids,
yield, then queue the first parent at the front and the rest at the back. -/
def iter_cp (objects : Store) : Nat → List Str → List Str → Except String (List Str)
  | 0, _, _ => .error "RecursionError"
  | _fuel + 1, [], _visited => .ok []
  | fuel + 1, oid :: rest, visited =>
    if oid = [] ∨ oid ∈ visited then iter_cp objects fuel rest visited
    else do
      let c ← get_commit objects oid
      let tail ←
        iter_cp objects fuel (c.parents.take 1 ++ rest ++ c.parents.drop 1)
          (oid :: visited)
      .ok (oid :: tail)

/-- The second loop of `base.get_merge_base`, consuming the generator lazily:
each yielded ancestor of `oid2` is tested for membership in `parents1` before
the generator resumes to parse the commit. -/
def merge_base_loop (objects : Store) (parents1 : List Str) :
    Nat → List Str → List Str → Except String (Option Str)
  | 0, _, _ => .error "RecursionError"
  | _fuel + 1, [], _visited => .ok none
  | fuel + 1, oid :: rest, visited =>
    if oid = [] ∨ oid ∈ visited then
      merge_base_loop objects parents1 fuel rest visited
    else if oid ∈ parents1 then .ok (some oid)
    else do
      let c ← get_commit objects oid
      merge_base_loop objects parents1 fuel
        (c.parents.take 1 ++ rest ++ c.parents.drop 1) (oid :: visited)

/-- `base.get_merge_base`: list the ancestors of `oid1`, then return the
first ancestor of `oid2` among them (`none` when the loop exhausts, as the
Python function falls off its end). -/
def get_merge_base (objects : Store) (fuel : Nat) (oid1 oid2 : Str) :
    Except String (Option Str) := do
  let parents1 ← iter_cp objects fuel [oid1] []
  merge_base_loop objects parents1 fuel [oid2] []

/-- Python `f'{x}'` for an optional string: `None` prints as `"None"`. -/
def pyShowOpt : Option Str → Str
  | some s => s
  | none => "None".toList

/-- `base.merge`: read `HEAD` (asserting it truthy), compute the merge base
against the other commit; when the base equals `HEAD`, fast-forward by
reading the other tree and pointing `HEAD` at it; otherwise record
`MERGE_HEAD` and materialize the three-way merge into index and working
directory. -/
def mergeOp (hash : Str → Str) (repo : Repo) (fuel : Nat) (other : Str) :
    Except String Repo := do
  let headR ← get_ref repo.refs fuel "HEAD".toList true
  match headR.value with
  | none => .error "AssertionError: HEAD"
  | some hd =>
    if hd = [] then .error "AssertionError: HEAD"
    else do
      let mb ← get_merge_base repo.objects fuel other hd
      let c_other ← get_commit repo.objects other
      if mb = some hd then
        match read_tree repo fuel c_other.tree true with
        | (.ok _, repo1) => do
          let refs' ←
            update_ref repo1.refs fuel "HEAD".toList ⟨false, some other⟩ true
          .ok { repo1 with refs := refs' }
        | (.error e, _) => .error e
      else do
        let refs1 ←
          update_ref repo.refs fuel "MERGE_HEAD".toList ⟨false, some other⟩ true
        let c_base ← get_commit repo.objects (pyShowOpt mb)
        let c_head ← get_commit repo.objects hd
        match read_tree_merged hash { repo with refs := refs1 } fuel
            c_base.tree c_head.tree c_other.tree true with
        | (.ok _, repo1) => .ok repo1
        | (.error e, _) => .error e

/-- `base.commit`: write the index as a tree, add a `parent` line for a truthy
`HEAD` and one for a truthy `MERGE_HEAD` (which is then deleted), append the
message after a blank line, store the commit object and point `HEAD` at it. -/
def commitOp (hash : Str → Str) (repo : Repo) (fuel : Nat) (message : Str) :
    Except String (Str × Repo) := do
  let (tOid, objs1) ← write_tree hash repo.index repo.objects
  let c0 := "tree ".toList ++ tOid ++ ['\n']
  let headV ← get_ref repo.refs fuel "HEAD".toList true
  let c1 := c0 ++ (match headV.value with
    | some h => if h = [] then [] else "parent ".toList ++ h ++ ['\n']
    | none => [])
  let mhV ← get_ref repo.refs fuel "MERGE_HEAD".toList true
  let (c2, refs1) ← (match mhV.value with
    | some mh =>
      if mh = [] then .ok (c1, repo.refs)
      else do
        let refs' ← delete_ref repo.refs fuel "MERGE_HEAD".toList false
        .ok (c1 ++ "parent ".toList ++ mh ++ ['\n'], refs')
    | none => .ok (c1, repo.refs) : Except String (Str × Store))
  let c3 := c2 ++ ['\n'] ++ message ++ ['\n']
  let (oid, objs2) := hash_object hash objs1 c3 "commit".toList
  let refs2 ← update_ref refs1 fuel "HEAD".toList ⟨false, some oid⟩ true
  .ok (oid, { repo with objects := objs2, refs := refs2 })

/-- `base.init`: create the repository and point `HEAD` symbolically at
`refs/heads/master`. -/
def initRepo : Except String Repo := do
  let refs ← update_ref [] 1 "HEAD".toList
    ⟨true, some "refs/heads/master".toList⟩ true
  .ok { objects := [], refs := refs, index := [], working := [] }

/-- `base.is_branch`. -/
def is_branch (refs : Store) (fuel : Nat) (name : Str) : Except String Bool := do
  let r ← get_ref refs fuel ("refs/heads/".toList ++ name) true
  .ok (r.value ≠ none)

/-- The candidate try of `base.get_oid`: the first candidate whose
un-dereferenced value is truthy is resolved with dereferencing and returned;
after the last candidate, a 40-character hex name is accepted literally and
anything else is an assertion failure. -/
def get_oid_go (refs : Store) (fuel : Nat) (name : Str) :
    List Str → Except String (Option Str)
  | [] =>
    if name.length = 40 ∧ name.all pyIsHex then .ok (some name)
    else .error "AssertionError: Unknown name"
  | c :: rest => do
    let r ← get_ref refs fuel c false
    match r.value with
    | some v =>
      if v ≠ [] then do
        let r2 ← get_ref refs fuel c true
        .ok r2.value
      else get_oid_go refs fuel name rest
    | none => get_oid_go refs fuel name rest

/-- `base.get_oid`: `@` maps to `HEAD`; then the literal name, `refs/<name>`,
`refs/tags/<name>` and `refs/heads/<name>` are tried in order. -/
def get_oid (refs : Store) (fuel : Nat) (name0 : Str) : Except String (Option Str) :=
  let name := if name0 = "@".toList then "HEAD".toList else name0
  get_oid_go refs fuel name
    [name, "refs/".toList ++ name, "refs/tags/".toList ++ name,
     "refs/heads/".toList ++ name]

/-! ## Association-list lemmas -/

theorem aset_cons_self {β : Type} (rest : List (Str × β)) (k : Str) (v v' : β) :
    aset ((k, v') :: rest) k v = (k, v) :: rest := by
  simp [aset]

theorem aset_cons_ne {β : Type} (rest : List (Str × β)) (k k0 : Str) (v v0 : β)
    (h : k0 ≠ k) : aset ((k0, v0) :: rest) k v = (k0, v0) :: aset rest k v := by
  simp [aset, h]

theorem alookup_aset_self {β : Type} (l : List (Str × β)) (k : Str) (v : β) :
    alookup (aset l k v) k = some v := by
  induction l with
  | nil => simp [aset, alookup]
  | cons p rest ih =>
    obtain ⟨k', v'⟩ := p
    by_cases h : k' = k
    · simp [aset, h, alookup]
    · simp [aset, h, alookup, ih]

theorem alookup_aset_ne {β : Type} (l : List (Str × β)) (k k' : Str) (v : β)
    (h : k' ≠ k) : alookup (aset l k v) k' = alookup l k' := by
  have h' : ¬ k = k' := fun hk => h hk.symm
  induction l with
  | nil => simp [aset, alookup, h']
  | cons p rest ih =>
    obtain ⟨k0, v0⟩ := p
    by_cases hp : k0 = k
    · subst hp
      simp [aset, alookup, h']
    · simp [aset, hp, alookup, ih]

theorem aset_aset {β : Type} (l : List (Str × β)) (k : Str) (v : β) :
    aset (aset l k v) k v = aset l k v := by
  induction l with
  | nil => simp [aset]
  | cons p rest ih =>
    obtain ⟨k0, v0⟩ := p
    by_cases hp : k0 = k
    · simp [aset, hp]
    · simp [aset, hp, ih]

theorem countP_eq_zero_of_not_mem_keys {β : Type} (l : List (Str × β)) (k : Str)
    (h : k ∉ l.map Prod.fst) : l.countP (fun p => p.1 = k) = 0 := by
  induction l with
  | nil => simp
  | cons p rest ih =>
    simp only [List.map_cons, List.mem_cons, not_or] at h
    rw [List.countP_cons]
    simp only [ih h.2, decide_eq_true_eq]
    have hne : ¬ p.1 = k := fun hh => h.1 hh.symm
    simp [hne]

theorem countP_aset {β : Type} (l : List (Str × β)) (k : Str) (v : β)
    (h : (l.map Prod.fst).Nodup) :
    (aset l k v).countP (fun p => p.1 = k) = 1 := by
  induction l with
  | nil => simp [aset]
  | cons p rest ih =>
    obtain ⟨k0, v0⟩ := p
    simp only [List.map_cons, List.nodup_cons] at h
    by_cases hp : k0 = k
    · subst hp
      rw [aset_cons_self, List.countP_cons]
      rw [countP_eq_zero_of_not_mem_keys rest k0 h.1]
      simp
    · rw [aset_cons_ne rest k k0 v v0 hp, List.countP_cons]
      rw [ih h.2]
      simp [hp]

theorem mem_keys_aset {β : Type} (l : List (Str × β)) (k : Str) (v : β) (x : Str) :
    x ∈ (aset l k v).map Prod.fst ↔ x ∈ l.map Prod.fst ∨ x = k := by
  induction l with
  | nil => simp [aset, eq_comm]
  | cons q qrest ihq =>
    obtain ⟨k0, v0⟩ := q
    by_cases hq : k0 = k
    · subst hq
      rw [aset_cons_self]
      simp only [List.map_cons, List.mem_cons]
      constructor
      · rintro (h | h)
        · exact Or.inr h
        · exact Or.inl (Or.inr h)
      · rintro ((h | h) | h)
        · exact Or.inl h
        · exact Or.inr h
        · exact Or.inl h
    · rw [aset_cons_ne qrest k k0 v v0 hq]
      simp only [List.map_cons, List.mem_cons, ihq]
      constructor
      · rintro (h | (h | h))
        · exact Or.inl (Or.inl h)
        · exact Or.inl (Or.inr h)
        · exact Or.inr h
      · rintro ((h | h) | h)
        · exact Or.inl h
        · exact Or.inr (Or.inl h)
        · exact Or.inr (Or.inr h)

theorem keys_aset_nodup {β : Type} (l : List (Str × β)) (k : Str) (v : β)
    (h : (l.map Prod.fst).Nodup) : ((aset l k v).map Prod.fst).Nodup := by
  induction l with
  | nil => simp [aset]
  | cons p rest ih =>
    obtain ⟨k0, v0⟩ := p
    simp only [List.map_cons, List.nodup_cons] at h
    by_cases hp : k0 = k
    · subst hp
      rw [aset_cons_self]
      simp only [List.map_cons, List.nodup_cons]
      exact ⟨h.1, h.2⟩
    · rw [aset_cons_ne rest k k0 v v0 hp]
      simp only [List.map_cons, List.nodup_cons]
      refine ⟨fun hmem => ?_, ih h.2⟩
      rcases (mem_keys_aset rest k v k0).1 hmem with hx | hx
      · exact h.1 hx
      · exact hp hx

/-! ## Claim theorems: object transfer paths (C10) -/

/-- C10: `push_object` writes the object to `remote ++ "/.ugit/objects/" ++ oid`
and `fetch_object_if_missing` (with the object absent locally) reads from the
same remote path; the transfer functions address the remote metadata directory
`.ugit`, while the repository's own metadata directory built by
`change_git_dir` — the one `is_ignored` excludes — is `.idiota`. -/
theorem C10_transfer_paths (fs : Store) (gitDir oid remote content : Str)
    (hlocal : alookup fs (gitDir ++ "/objects/".toList ++ oid) = none)
    (hremote : alookup fs (remote ++ "/.ugit/objects/".toList ++ oid) = some content) :
    fetch_object_if_missing fs gitDir oid remote =
      .ok (aset fs (gitDir ++ "/objects/".toList ++ oid) content)
    ∧ (∀ c, alookup fs (gitDir ++ "/objects/".toList ++ oid) = some c →
        push_object fs gitDir oid remote =
          .ok (aset fs (remote ++ "/.ugit/objects/".toList ++ oid) c))
    ∧ (∀ d, change_git_dir d = d ++ "/.idiota".toList)
    ∧ is_ignored ".idiota".toList = true
    ∧ is_ignored ".ugit".toList = false := by
  have hlit : "/.ugit".toList ++ "/objects/".toList = "/.ugit/objects/".toList := by
    decide
  have hpath : ∀ r : Str, r ++ "/.ugit".toList ++ "/objects/".toList ++ oid =
      r ++ "/.ugit/objects/".toList ++ oid := by
    intro r
    calc r ++ "/.ugit".toList ++ "/objects/".toList ++ oid
        = r ++ ("/.ugit".toList ++ "/objects/".toList) ++ oid := by
          rw [List.append_assoc r]
      _ = r ++ "/.ugit/objects/".toList ++ oid := by rw [hlit]
  refine ⟨?_, ?_, fun d => rfl, by decide, by decide⟩
  · rw [fetch_object_if_missing, hlocal]
    simp only [Option.isSome_none, Bool.false_eq_true, if_false]
    rw [hpath remote, hremote]
  · intro c hc
    rw [push_object, hc, hpath remote]

/-- Witness for `C10_transfer_paths` at a concrete two-file file system. -/
theorem C10_transfer_paths_witness :
    fetch_object_if_missing [("r/.ugit/objects/o1".toList, "x".toList)]
      "g".toList "o1".toList "r".toList =
      .ok (aset [("r/.ugit/objects/o1".toList, "x".toList)]
        ("g".toList ++ "/objects/".toList ++ "o1".toList) "x".toList) :=
  (C10_transfer_paths [("r/.ugit/objects/o1".toList, "x".toList)]
    "g".toList "o1".toList "r".toList "x".toList (by decide) (by decide)).1

/-! ## Claim theorems: content addressing and idempotent put (C5) -/

/-- C5: `hash_object` returns the digest of `kind || 0x00 || content`; equal
content of the same kind gives equal ids; storing the same input twice
returns the same id both times, leaves the store exactly as after the first
write, and (for a store without duplicate paths) leaves exactly one stored
object under that id. -/
theorem C5_content_addressing (hash : Str → Str) (st : Store) (c1 c2 kind : Str)
    (heq : c1 = c2) (hnodup : (st.map Prod.fst).Nodup) :
    (hash_object hash st c1 kind).1 = hash (kind ++ nul :: c1)
    ∧ (hash_object hash st c1 kind).1 = (hash_object hash st c2 kind).1
    ∧ (hash_object hash (hash_object hash st c1 kind).2 c1 kind).1 =
        (hash_object hash st c1 kind).1
    ∧ (hash_object hash (hash_object hash st c1 kind).2 c1 kind).2 =
        (hash_object hash st c1 kind).2
    ∧ (hash_object hash st c1 kind).2.countP
        (fun p => p.1 = (hash_object hash st c1 kind).1) = 1 := by
  subst heq
  refine ⟨rfl, rfl, rfl, ?_, ?_⟩
  · simp only [hash_object]
    exact aset_aset st (hash (kind ++ nul :: c1)) (kind ++ nul :: c1)
  · simp only [hash_object]
    exact countP_aset st (hash (kind ++ nul :: c1)) (kind ++ nul :: c1) hnodup

/-- Witness for `C5_content_addressing` with a concrete store and digest. -/
theorem C5_content_addressing_witness :
    (hash_object (fun s => 'h' :: s) [("k".toList, "v".toList)] "c".toList
      "blob".toList).1 = 'h' :: ("blob".toList ++ nul :: "c".toList) :=
  (C5_content_addressing (fun s => 'h' :: s) [("k".toList, "v".toList)]
    "c".toList "c".toList "blob".toList rfl (by decide)).1

/-! ## Claim theorems: missing references (C9) -/

theorem iter_refs_skips_aux (refs : Store) (fuel : Nat) (name : Str)
    (deref : Bool) (habsent : alookup refs name = none) :
    ∀ (cands : List Str) (acc res : List (Str × RefValue)),
      cands.foldlM (fun acc n => do
        let r ← get_ref refs fuel n deref
        match r.value with
        | some v => if v = [] then pure acc else pure (acc ++ [(n, r)])
        | none => pure acc) acc = .ok res →
      (∀ rv, (name, rv) ∉ acc) → ∀ rv, (name, rv) ∉ res := by
  intro cands
  induction cands with
  | nil =>
    intro acc res hfold hacc
    simp only [List.foldlM_nil] at hfold
    cases hfold
    exact hacc
  | cons n rest ih =>
    intro acc res hfold hacc
    rw [List.foldlM_cons] at hfold
    rcases hr : get_ref refs fuel n deref with e | r
    · rw [hr] at hfold
      simp only [Bind.bind, Except.bind] at hfold
      cases hfold
    · rw [hr] at hfold
      simp only [Bind.bind, Except.bind] at hfold
      rcases hv : r.value with _ | v
      · simp only [hv, pure, Except.pure] at hfold
        exact ih acc res hfold hacc
      · simp only [hv, pure, Except.pure] at hfold
        by_cases hveq : v = []
        · simp only [if_pos hveq, pure, Except.pure] at hfold
          exact ih acc res hfold hacc
        · simp only [if_neg hveq, pure, Except.pure] at hfold
          refine ih (acc ++ [(n, r)]) res hfold ?_
          intro rv hmem
          rcases List.mem_append.1 hmem with hmem | hmem
          · exact hacc rv hmem
          · simp only [List.mem_singleton, Prod.mk.injEq] at hmem
            have hn : name = n := hmem.1
            subst hn
            rw [get_ref] at hr
            cases fuel with
            | zero => simp [get_ref_internal, Except.map] at hr
            | succ f =>
              rw [get_ref_internal, habsent] at hr
              simp only [Option.map_none, Except.map_ok] at hr
              cases hr
              simp at hv

/-- C9: a name with no stored ref file resolves without any error to
`RefValue(symbolic=False, value=None)`; consequently `iter_refs` never yields
such a name, and `is_branch` returns `False` when the branch file is absent —
no NotFound-style failure is raised anywhere on this path. -/
theorem C9_missing_ref (refs : Store) (fuel : Nat) (name : Str) (deref : Bool)
    (habsent : alookup refs name = none)
    (hbranch : alookup refs ("refs/heads/".toList ++ name) = none) :
    get_ref refs (fuel + 1) name deref = .ok ⟨false, none⟩
    ∧ is_branch refs (fuel + 1) name = .ok false
    ∧ (∀ pfx res, iter_refs refs (fuel + 1) pfx deref = .ok res →
        ∀ rv, (name, rv) ∉ res) := by
  have hget : get_ref refs (fuel + 1) name deref = .ok ⟨false, none⟩ := by
    rw [get_ref, get_ref_internal, habsent]
    rfl
  refine ⟨hget, ?_, ?_⟩
  · rw [is_branch]
    have : get_ref refs (fuel + 1) ("refs/heads/".toList ++ name) true =
        .ok ⟨false, none⟩ := by
      rw [get_ref, get_ref_internal, hbranch]
      rfl
    rw [this]
    rfl
  · intro pfx res hiter rv
    rw [iter_refs] at hiter
    exact iter_refs_skips_aux refs (fuel + 1) name deref habsent _ [] res hiter
      (by simp) rv

/-- Witness for `C9_missing_ref` on a one-ref store. -/
theorem C9_missing_ref_witness :
    get_ref [("refs/heads/x".toList, "abc".toList)] 3 "refs/heads/y".toList true =
      .ok ⟨false, none⟩ :=
  (C9_missing_ref [("refs/heads/x".toList, "abc".toList)] 2
    "refs/heads/y".toList true (by decide) (by decide)).1

/-! ## Claim theorems: index persistence (C3, corrected) -/

/-- A concrete repository whose index holds one entry and whose object store
is empty, so that reading any tree fails. -/
def repoC3 : Repo :=
  { objects := [], refs := [], index := [("a".toList, "1".toList)], working := [] }

/-- C3 counterexample: `read_tree` on a missing tree oid raises out of the
`get_index` block after `index.clear()` has run; the final in-memory index is
empty, but the stored index still holds the old entry — the cleared state was
not persisted, so the index is not flushed on the exception exit path. -/
theorem C3_counterexample :
    read_tree_body repoC3.objects repoC3.working 5 "t".toList false repoC3.index =
      (.error "FileNotFoundError", [])
    ∧ (read_tree repoC3 5 "t".toList false).1 = .error "FileNotFoundError"
    ∧ (read_tree repoC3 5 "t".toList false).2.index = [("a".toList, "1".toList)]
    ∧ [("a".toList, "1".toList)] ≠ ([] : List (Str × Str)) := by
  refine ⟨by decide, by decide, by decide, by decide⟩

/-- C3 amended: an operation running under `get_index` persists the final
in-memory index exactly when its body completes normally; when the body
raises, the store keeps its previous contents (shown here for `read_tree`,
whose body clears the index before it can fail in `get_tree`). -/
theorem C3_flush_on_success_only (repo : Repo) (fuel : Nat) (t : Str) (upd : Bool) :
    (∀ r, read_tree repo fuel t upd = (.ok (), r) →
      r.index = (read_tree_body repo.objects repo.working fuel t upd repo.index).2)
    ∧ (∀ e r, read_tree repo fuel t upd = (.error e, r) → r.index = repo.index) := by
  constructor
  · intro r hr
    rw [read_tree, get_index_run] at hr
    rcases hb : read_tree_body repo.objects repo.working fuel t upd repo.index
      with ⟨out, idx'⟩
    rw [hb] at hr
    cases out with
    | ok w => cases hr; simp [hb]
    | error e => simp at hr
  · intro e r hr
    rw [read_tree, get_index_run] at hr
    rcases hb : read_tree_body repo.objects repo.working fuel t upd repo.index
      with ⟨out, idx'⟩
    rw [hb] at hr
    cases out with
    | ok w => simp at hr
    | error e' => cases hr; rfl

/-- Witness for `C3_flush_on_success_only` at the concrete failing repo. -/
theorem C3_flush_on_success_only_witness :
    (read_tree repoC3 5 "t".toList false).2.index = repoC3.index :=
  (C3_flush_on_success_only repoC3 5 "t".toList false).2 "FileNotFoundError"
    (read_tree repoC3 5 "t".toList false).2 (by decide)

/-! ## Claim theorems: name resolution (C7) -/

theorem get_oid_go_skip (refs : Store) (fuel : Nat) (name c : Str)
    (rest : List Str) (h : get_ref refs fuel c false = .ok ⟨false, none⟩) :
    get_oid_go refs fuel name (c :: rest) = get_oid_go refs fuel name rest := by
  rw [get_oid_go]
  simp only [Bind.bind, Except.bind, h]

/-- C7: `get_oid` maps `@` to `HEAD`; it tries the literal name, `refs/<n>`,
`refs/tags/<n>`, `refs/heads/<n>` in order and returns the dereferenced value
of the first candidate whose un-dereferenced value is non-empty (so a tag
shadows a branch of the same name); when no candidate resolves, a
40-character hex name is returned literally and any other name fails. -/
theorem C7_name_resolution (refs : Store) (fuel : Nat) (n tv : Str)
    (hat : n ≠ "@".toList) :
    (get_oid refs fuel "@".toList = get_oid refs fuel "HEAD".toList)
    ∧ (alookup refs n = none →
       alookup refs ("refs/".toList ++ n) = none →
       alookup refs ("refs/tags/".toList ++ n) = some tv →
       pyStrip tv = tv → tv ≠ [] → ¬ "ref:".toList.isPrefixOf tv →
       get_oid refs (fuel + 1) n = .ok (some tv))
    ∧ (alookup refs n = none →
       alookup refs ("refs/".toList ++ n) = none →
       alookup refs ("refs/tags/".toList ++ n) = none →
       alookup refs ("refs/heads/".toList ++ n) = none →
       ((n.length = 40 ∧ n.all pyIsHex) → get_oid refs (fuel + 1) n = .ok (some n))
       ∧ (¬ (n.length = 40 ∧ n.all pyIsHex) →
          get_oid refs (fuel + 1) n = .error "AssertionError: Unknown name")) := by
  refine ⟨?_, ?_, ?_⟩
  · rw [get_oid, get_oid]
    rw [if_pos rfl, if_neg (by decide)]
  · intro h1 h2 h3 hstrip hne hpfx
    have hc1 : get_ref refs (fuel + 1) n false = .ok ⟨false, none⟩ := by
      rw [get_ref, get_ref_internal, h1]
      rfl
    have hc2 : get_ref refs (fuel + 1) ("refs/".toList ++ n) false =
        .ok ⟨false, none⟩ := by
      rw [get_ref, get_ref_internal, h2]
      rfl
    have hc3 : ∀ d, get_ref refs (fuel + 1) ("refs/tags/".toList ++ n) d =
        .ok ⟨false, some tv⟩ := by
      intro d
      rw [get_ref, get_ref_internal, h3]
      simp only [Option.map, hstrip]
      rw [if_neg hpfx]
      rfl
    rw [get_oid, if_neg hat]
    rw [get_oid_go_skip refs (fuel + 1) n n _ hc1]
    rw [get_oid_go_skip refs (fuel + 1) n _ _ hc2]
    rw [get_oid_go]
    simp only [Bind.bind, Except.bind, hc3]
    rw [if_pos hne]
  · intro h1 h2 h3 h4
    have hc1 : get_ref refs (fuel + 1) n false = .ok ⟨false, none⟩ := by
      rw [get_ref, get_ref_internal, h1]
      rfl
    have hc2 : get_ref refs (fuel + 1) ("refs/".toList ++ n) false =
        .ok ⟨false, none⟩ := by
      rw [get_ref, get_ref_internal, h2]
      rfl
    have hc3 : get_ref refs (fuel + 1) ("refs/tags/".toList ++ n) false =
        .ok ⟨false, none⟩ := by
      rw [get_ref, get_ref_internal, h3]
      rfl
    have hc4 : get_ref refs (fuel + 1) ("refs/heads/".toList ++ n) false =
        .ok ⟨false, none⟩ := by
      rw [get_ref, get_ref_internal, h4]
      rfl
    have hgo : get_oid refs (fuel + 1) n = get_oid_go refs (fuel + 1) n [] := by
      rw [get_oid, if_neg hat]
      rw [get_oid_go_skip refs (fuel + 1) n n _ hc1]
      rw [get_oid_go_skip refs (fuel + 1) n _ _ hc2]
      rw [get_oid_go_skip refs (fuel + 1) n _ _ hc3]
      rw [get_oid_go_skip refs (fuel + 1) n _ _ hc4]
    constructor
    · intro hhex
      rw [hgo, get_oid_go, if_pos hhex]
    · intro hhex
      rw [hgo, get_oid_go, if_neg hhex]

/-- Witness for `C7_name_resolution`: both a tag and a branch named `v1`
exist and the tag's target wins. -/
theorem C7_name_resolution_witness :
    get_oid [("refs/tags/v1".toList, "tagT".toList),
             ("refs/heads/v1".toList, "headT".toList)] 5 "v1".toList =
      .ok (some "tagT".toList) :=
  ((C7_name_resolution [("refs/tags/v1".toList, "tagT".toList),
      ("refs/heads/v1".toList, "headT".toList)] 4 "v1".toList "tagT".toList
      (by decide)).2.1) (by decide) (by decide) (by decide) (by decide)
      (by decide) (by decide)

/-! ## Claim theorems: three-way merge rules (C2, spec-modelled) -/

/-- C2: per path with base/head/other values `b`, `h`, `o`, the merge takes
`h` when `h = o`, takes `o` when only other changed, takes `h` when only head
changed, and on a true conflict with both sides present stores a new blob
that contains the head content and the other content between conflict
markers, equal to neither side alone; `read_tree_merged` fills the index with
this merged mapping, and the spec's no-conflict example merges base `{a: 1}`,
head `{a: 1, b: 2}`, other `{a: 3}` to `{a: 3, b: 2}`. -/
theorem C2_three_way_merge (hash : Str → Str) (objs : Store) (b h o : Option Str) :
    (h = o → merge_entry hash objs b h o = .ok (h, objs))
    ∧ (h ≠ o → h = b → merge_entry hash objs b h o = .ok (o, objs))
    ∧ (h ≠ o → h ≠ b → o = b → merge_entry hash objs b h o = .ok (h, objs))
    ∧ (∀ hid oid ch co, h = some hid → o = some oid → h ≠ o → h ≠ b → o ≠ b →
        get_object objs hid (some "blob".toList) = .ok ch →
        get_object objs oid (some "blob".toList) = .ok co →
        merge_entry hash objs b h o =
          .ok (some (hash ("blob".toList ++ nul :: merge_blobs_content ch co)),
            aset objs (hash ("blob".toList ++ nul :: merge_blobs_content ch co))
              ("blob".toList ++ nul :: merge_blobs_content ch co))
        ∧ ch <:+: merge_blobs_content ch co
        ∧ co <:+: merge_blobs_content ch co
        ∧ merge_blobs_content ch co ≠ ch
        ∧ merge_blobs_content ch co ≠ co)
    ∧ (∀ hash' objs',
        merge_trees hash' objs'
          [("a".toList, "1".toList)]
          [("a".toList, "1".toList), ("b".toList, "2".toList)]
          [("a".toList, "3".toList)] =
        .ok ([("a".toList, "3".toList), ("b".toList, "2".toList)], objs')) := by
  refine ⟨?_, ?_, ?_, ?_, ?_⟩
  · intro heq
    unfold merge_entry
    rw [if_pos heq]
  · intro hne heb
    unfold merge_entry
    rw [if_neg hne, if_pos heb]
  · intro hne hnb hob
    unfold merge_entry
    rw [if_neg hne, if_neg hnb, if_pos hob]
  · intro hid oid ch co hh ho hne hnb hnob hch hco
    subst hh
    subst ho
    refine ⟨?_, ?_, ?_, ?_, ?_⟩
    · unfold merge_entry
      rw [if_neg hne, if_neg hnb, if_neg hnob]
      simp only [Bind.bind, Except.bind, hch, hco]
      rfl
    · exact ⟨"<<<<<<< HEAD\n".toList,
        "=======\n".toList ++ co ++ ">>>>>>> other\n".toList, by
          simp [merge_blobs_content, List.append_assoc]⟩
    · exact ⟨"<<<<<<< HEAD\n".toList ++ ch ++ "=======\n".toList,
        ">>>>>>> other\n".toList, by
          simp [merge_blobs_content, List.append_assoc]⟩
    · intro hc
      have := congrArg List.length hc
      rw [merge_blobs_content] at this
      simp [List.length_append] at this
      omega
    · intro hc
      have := congrArg List.length hc
      rw [merge_blobs_content] at this
      simp [List.length_append] at this
      omega
  · intro hash' objs'
    rfl

/-- Witness for `C2_three_way_merge`: the agreeing-sides rule at a concrete
triple. -/
theorem C2_three_way_merge_witness :
    merge_entry (fun s => s) [] (some "1".toList) (some "2".toList)
      (some "2".toList) = .ok (some "2".toList, []) :=
  (C2_three_way_merge (fun s => s) [] (some "1".toList) (some "2".toList)
    (some "2".toList)).1 rfl

/-! ## Claim theorems: merge base on a linear chain (C1, code bug) -/

/-- A digest stand-in for concrete runs: it prefixes a marker and escapes the
separator characters, which keeps the concrete objects of this file's
examples distinct. -/
def escHash (s : Str) : Str :=
  'h' :: s.map (fun c =>
    if c = ' ' then '_' else if c = '\n' then '.' else if c = nul then '0' else c)

/-- A freshly initialised repository (`HEAD` symbolic to
`refs/heads/master`), as `base.init` creates it. -/
def repoInit : Repo :=
  { objects := [], refs := [("HEAD".toList, "ref: refs/heads/master".toList)],
    index := [], working := [] }

def oidA : Str := "hcommit0tree_htree0..A.".toList

def oidB : Str := "hcommit0tree_htree0.parent_hcommit0tree_htree0..A...B.".toList

def oidC : Str :=
  "hcommit0tree_htree0.parent_hcommit0tree_htree0.parent_hcommit0tree_htree0..A...B...C.".toList

/-- The repository after `commit('A')` on the empty index. -/
def repoA : Repo :=
  { objects := [("htree0".toList, "tree\x00".toList),
                (oidA, "commit\x00tree htree0\n\nA\n".toList)],
    refs := [("HEAD".toList, "ref: refs/heads/master".toList),
             ("refs/heads/master".toList, oidA)],
    index := [], working := [] }

/-- The repository after the further `commit('B')`. -/
def repoAB : Repo :=
  { objects := [("htree0".toList, "tree\x00".toList),
                (oidA, "commit\x00tree htree0\n\nA\n".toList),
                (oidB, ("commit\x00tree htree0\nparent ".toList ++ oidA ++ "\n\nB\n".toList))],
    refs := [("HEAD".toList, "ref: refs/heads/master".toList),
             ("refs/heads/master".toList, oidB)],
    index := [], working := [] }

/-- The repository after the further `commit('C')`. -/
def repoABC : Repo :=
  { objects := [("htree0".toList, "tree\x00".toList),
                (oidA, "commit\x00tree htree0\n\nA\n".toList),
                (oidB, ("commit\x00tree htree0\nparent ".toList ++ oidA ++ "\n\nB\n".toList)),
                (oidC, ("commit\x00tree htree0\nparent ".toList ++ oidB ++ "\n\nC\n".toList))],
    refs := [("HEAD".toList, "ref: refs/heads/master".toList),
             ("refs/heads/master".toList, oidC)],
    index := [], working := [] }

/-! ## Claim theorems: fast-forward merge (C8) -/

theorem get_ref_of_internal (refs : Store) (fuel : Nat) (ref : Str) (d : Bool)
    (loc : Str) (rv : RefValue)
    (h : get_ref_internal refs fuel ref d = .ok (loc, rv)) :
    get_ref refs fuel ref d = .ok rv := by
  rw [get_ref, h]
  rfl

theorem read_tree_keeps_objects_refs (repo : Repo) (fuel : Nat) (t : Str)
    (u : Bool) :
    (read_tree repo fuel t u).2.objects = repo.objects
    ∧ (read_tree repo fuel t u).2.refs = repo.refs := by
  rw [read_tree]
  rcases h : get_index_run repo.index
    (read_tree_body repo.objects repo.working fuel t u) with ⟨out, idx⟩
  cases out with
  | ok w => exact ⟨rfl, rfl⟩
  | error e => exact ⟨rfl, rfl⟩

/-- Writing a plain (non-symbolic, stripped) value at the storage location a
dereferencing resolution found leaves every ref on that chain resolving to
the written value. -/
theorem get_ref_internal_after_set (refs : Store) (newC : Str)
    (hstrip : pyStrip newC = newC)
    (hpfx : ¬ "ref:".toList.isPrefixOf newC = true) :
    ∀ fuel ref loc rv, get_ref_internal refs fuel ref true = .ok (loc, rv) →
      get_ref_internal (aset refs loc newC) fuel ref true =
        .ok (loc, ⟨false, some newC⟩) := by
  intro fuel
  induction fuel with
  | zero =>
    intro ref loc rv h
    simp [get_ref_internal] at h
  | succ f ih =>
    intro ref loc rv h
    by_cases hrl : ref = loc
    · subst hrl
      rw [get_ref_internal]
      rw [alookup_aset_self]
      simp only [Option.map, hstrip]
      rw [if_neg hpfx]
    · rw [get_ref_internal] at h
      rw [get_ref_internal]
      rw [alookup_aset_ne refs loc ref newC hrl]
      cases hlk : alookup refs ref with
      | none =>
        rw [hlk] at h
        simp only [Option.map] at h
        cases h
        exact absurd rfl hrl
      | some v =>
        rw [hlk] at h
        simp only [Option.map] at h ⊢
        by_cases hp : "ref:".toList.isPrefixOf (pyStrip v) = true
        · rw [if_pos hp] at h ⊢
          cases hsp : splitFirst ':' (pyStrip v) with
          | none =>
            rw [hsp] at h
            simp at h
          | some pr =>
            obtain ⟨pre, post⟩ := pr
            rw [hsp] at h
            simp only [if_true] at h ⊢
            exact ih _ _ _ h
        · rw [if_neg hp] at h ⊢
          cases h
          exact absurd rfl hrl

/-- C8: when `merge(other)` finds `merge_base(other, HEAD) = HEAD`, it
fast-forwards — the working tree is read, `HEAD` resolves to `other`
afterwards, the object store is untouched (no commit object is created), and
the `MERGE_HEAD` file is exactly as before (so it stays unset). -/
theorem C8_fast_forward (hash : Str → Str) (repo : Repo) (fuel : Nat)
    (other hd loc : Str) (rv : RefValue) (cOther : Commit)
    (hhead : get_ref_internal repo.refs fuel "HEAD".toList true = .ok (loc, rv))
    (hval : rv.value = some hd) (hne : hd ≠ [])
    (hmb : get_merge_base repo.objects fuel other hd = .ok (some hd))
    (hco : get_commit repo.objects other = .ok cOther)
    (hrt : (read_tree repo fuel cOther.tree true).1 = .ok ())
    (hloc : loc ≠ "MERGE_HEAD".toList)
    (hstrip : pyStrip other = other)
    (hpfx : ¬ "ref:".toList.isPrefixOf other = true)
    (hne2 : other ≠ []) :
    mergeOp hash repo fuel other =
      .ok { (read_tree repo fuel cOther.tree true).2 with
            refs := aset repo.refs loc other }
    ∧ ({ (read_tree repo fuel cOther.tree true).2 with
          refs := aset repo.refs loc other } : Repo).objects = repo.objects
    ∧ alookup (aset repo.refs loc other) "MERGE_HEAD".toList =
        alookup repo.refs "MERGE_HEAD".toList
    ∧ get_ref (aset repo.refs loc other) fuel "HEAD".toList true =
        .ok ⟨false, some other⟩ := by
  have hrefs1 : (read_tree repo fuel cOther.tree true).2.refs = repo.refs :=
    (read_tree_keeps_objects_refs repo fuel cOther.tree true).2
  refine ⟨?_, ?_, ?_, ?_⟩
  · rw [mergeOp]
    rw [get_ref_of_internal repo.refs fuel "HEAD".toList true loc rv hhead]
    simp only [Bind.bind, Except.bind, hval]
    rw [if_neg hne]
    rw [hmb]
    rw [hco]
    simp only [if_pos rfl]
    rcases hr : read_tree repo fuel cOther.tree true with ⟨out1, repo1⟩
    rw [hr] at hrt
    simp only at hrt
    subst hrt
    rw [hr] at hrefs1
    simp only at hrefs1
    simp only [if_true]
    rw [update_ref, hrefs1, hhead]
    simp only [Bind.bind, Except.bind]
    rw [if_neg hne2]
    rfl
  · exact (read_tree_keeps_objects_refs repo fuel cOther.tree true).1
  · exact alookup_aset_ne repo.refs loc "MERGE_HEAD".toList other (Ne.symm hloc)
  · have := get_ref_internal_after_set repo.refs other hstrip hpfx fuel
      "HEAD".toList loc rv hhead
    rw [get_ref, this]
    rfl

/-- Witness for `C8_fast_forward`: merging the current tip into itself on the
concrete three-commit repository. -/
theorem C8_fast_forward_witness :
    mergeOp escHash repoABC 20 oidC =
      .ok { (read_tree repoABC 20 "htree0".toList true).2 with
            refs := aset repoABC.refs "refs/heads/master".toList oidC } :=
  (C8_fast_forward escHash repoABC 20 oidC oidC "refs/heads/master".toList
    ⟨false, some oidC⟩ ⟨"htree0".toList, [], "C".toList⟩
    (by decide) (by decide) (by decide) (by decide) (by decide) (by decide)
    (by decide) (by decide) (by decide) (by decide)).1

/-- C1 is a code bug: the linear chain `A → B → C` is built by `commit()`
(the three `commitOp` equations in this statement), and commit `B`'s stored
content does hold a `parent` line naming `A`; yet `get_commit` parses the
parent list as empty — its `parent` branch assigns `parents = []` instead of
appending the value — so the ancestor traversal never leaves the starting
commit and `get_merge_base(C, A)` returns `None` rather than `A`. -/
theorem C1_merge_base_bug :
    commitOp escHash repoInit 10 "A".toList = .ok (oidA, repoA)
    ∧ commitOp escHash repoA 10 "B".toList = .ok (oidB, repoAB)
    ∧ commitOp escHash repoAB 10 "C".toList = .ok (oidC, repoABC)
    ∧ ("parent ".toList ++ oidA) <:+:
        ("commit\x00tree htree0\nparent ".toList ++ oidA ++ "\n\nB\n".toList)
    ∧ (get_commit repoABC.objects oidB).map Commit.parents = .ok []
    ∧ get_merge_base repoABC.objects 20 oidC oidA = .ok none
    ∧ (.ok none : Except String (Option Str)) ≠ .ok (some oidA) := by
  refine ⟨by decide, by decide, by decide, by decide, by decide, by decide,
    by decide⟩

/-! ## Order and sort lemmas for the canonical tree encoding -/

theorem strLTb_irrefl (a : Str) : strLTb a a = false := by
  induction a with
  | nil => rfl
  | cons c rest ih => simp [strLTb, ih]

theorem strLTb_asymm (a b : Str) (h : strLTb a b = true) : strLTb b a = false := by
  induction a generalizing b with
  | nil =>
    cases b with
    | nil => simp [strLTb] at h
    | cons d bs => rfl
  | cons c rest ih =>
    cases b with
    | nil => simp [strLTb] at h
    | cons d bs =>
      rw [strLTb] at h ⊢
      by_cases hcd : c < d
      · rw [if_neg (lt_asymm hcd), if_pos hcd]
      · by_cases hdc : d < c
        · rw [if_neg hcd, if_pos hdc] at h
          cases h
        · have hde : c = d := le_antisymm (not_lt.1 hdc) (not_lt.1 hcd)
          subst hde
          rw [if_neg hcd, if_neg hdc] at h
          rw [if_neg hdc, if_neg hcd]
          exact ih bs h

theorem strLTb_trans (a b c : Str) (h1 : strLTb a b = true)
    (h2 : strLTb b c = true) : strLTb a c = true := by
  induction a generalizing b c with
  | nil =>
    cases b with
    | nil => simp [strLTb] at h1
    | cons d bs =>
      cases c with
      | nil => simp [strLTb] at h2
      | cons e cs => rfl
  | cons x rest ih =>
    cases b with
    | nil => simp [strLTb] at h1
    | cons y bs =>
      cases c with
      | nil => simp [strLTb] at h2
      | cons z cs =>
        rw [strLTb] at h1 h2 ⊢
        by_cases hxy : x < y
        · by_cases hyz : y < z
          · rw [if_pos (lt_trans hxy hyz)]
          · by_cases hzy : z < y
            · rw [if_neg hyz, if_pos hzy] at h2
              cases h2
            · have hyz' : y = z := le_antisymm (not_lt.1 hzy) (not_lt.1 hyz)
              subst hyz'
              rw [if_pos hxy]
        · by_cases hyx : y < x
          · rw [if_neg hxy, if_pos hyx] at h1
            cases h1
          · have hxy' : x = y := le_antisymm (not_lt.1 hyx) (not_lt.1 hxy)
            subst hxy'
            rw [if_neg hxy, if_neg hyx] at h1
            by_cases hyz : x < z
            · rw [if_pos hyz]
            · by_cases hzy : z < x
              · rw [if_neg hyz, if_pos hzy] at h2
                cases h2
              · have hyz' : x = z := le_antisymm (not_lt.1 hzy) (not_lt.1 hyz)
                subst hyz'
                rw [if_neg hyz, if_neg hzy] at h2
                rw [if_neg hyz, if_neg hzy]
                exact ih bs cs h1 h2

theorem strLTb_total (a b : Str) :
    strLTb a b = true ∨ strLTb b a = true ∨ a = b := by
  induction a generalizing b with
  | nil =>
    cases b with
    | nil => exact Or.inr (Or.inr rfl)
    | cons d bs => exact Or.inl rfl
  | cons c rest ih =>
    cases b with
    | nil => exact Or.inr (Or.inl rfl)
    | cons d bs =>
      by_cases hcd : c < d
      · exact Or.inl (by rw [strLTb, if_pos hcd])
      · by_cases hdc : d < c
        · exact Or.inr (Or.inl (by rw [strLTb, if_pos hdc]))
        · have he : c = d := le_antisymm (not_lt.1 hdc) (not_lt.1 hcd)
          subst he
          rcases ih bs with h | h | h
          · exact Or.inl (by rw [strLTb, if_neg hcd, if_neg hdc]; exact h)
          · exact Or.inr (Or.inl (by rw [strLTb, if_neg hcd, if_neg hdc]; exact h))
          · exact Or.inr (Or.inr (by rw [h]))

theorem strLTb_not_lt_eq (a b : Str) (h1 : strLTb a b = false)
    (h2 : strLTb b a = false) : a = b := by
  rcases strLTb_total a b with h | h | h
  · rw [h] at h1
    cases h1
  · rw [h] at h2
    cases h2
  · exact h

theorem strLTb_irrefl_of_eq (a b : Str) (h : a = b) : strLTb a b = false := by
  rw [h]
  exact strLTb_irrefl b

theorem entryLEb_total (x y : Entry3) :
    entryLEb x y = true ∨ entryLEb y x = true := by
  rw [entryLEb, entryLEb]
  by_cases h1 : x.1 = y.1
  · rw [if_pos h1, if_pos h1.symm]
    by_cases h2 : x.2.1 = y.2.1
    · rw [if_pos h2, if_pos h2.symm]
      by_cases h3 : strLTb y.2.2 x.2.2 = true
      · right
        rw [strLTb_asymm _ _ h3]
        rfl
      · left
        rw [Bool.not_eq_true] at h3
        rw [h3]
        rfl
    · rw [if_neg h2, if_neg (fun he => h2 he.symm)]
      rcases strLTb_total x.2.1 y.2.1 with h | h | h
      · exact Or.inl h
      · exact Or.inr h
      · exact absurd h h2
  · rw [if_neg h1, if_neg (fun he => h1 he.symm)]
    rcases strLTb_total x.1 y.1 with h | h | h
    · exact Or.inl h
    · exact Or.inr h
    · exact absurd h h1

theorem entryLEb_antisymm (x y : Entry3) (h1 : entryLEb x y = true)
    (h2 : entryLEb y x = true) : x = y := by
  rw [entryLEb] at h1 h2
  by_cases ha : x.1 = y.1
  · rw [if_pos ha] at h1
    rw [if_pos ha.symm] at h2
    by_cases hb : x.2.1 = y.2.1
    · rw [if_pos hb] at h1
      rw [if_pos hb.symm] at h2
      rw [Bool.not_eq_true'] at h1
      rw [Bool.not_eq_true'] at h2
      have hc : x.2.2 = y.2.2 := strLTb_not_lt_eq _ _ h2 h1
      obtain ⟨x1, x2, x3⟩ := x
      obtain ⟨y1, y2, y3⟩ := y
      simp only at ha hb hc
      rw [ha, hb, hc]
    · rw [if_neg hb] at h1
      rw [if_neg (fun he => hb he.symm)] at h2
      rw [strLTb_asymm _ _ h1] at h2
      cases h2
  · rw [if_neg ha] at h1
    rw [if_neg (fun he => ha he.symm)] at h2
    rw [strLTb_asymm _ _ h1] at h2
    cases h2

theorem entryLEb_trans (x y z : Entry3) (h1 : entryLEb x y = true)
    (h2 : entryLEb y z = true) : entryLEb x z = true := by
  rw [entryLEb] at h1 h2 ⊢
  by_cases ha : x.1 = y.1
  · rw [if_pos ha] at h1
    by_cases hb : y.1 = z.1
    · rw [if_pos hb] at h2
      rw [if_pos (ha.trans hb)]
      by_cases hc : x.2.1 = y.2.1
      · rw [if_pos hc] at h1
        by_cases hd : y.2.1 = z.2.1
        · rw [if_pos hd] at h2
          rw [if_pos (hc.trans hd)]
          rw [Bool.not_eq_true'] at h1
          rw [Bool.not_eq_true'] at h2
          rw [Bool.not_eq_true']
          by_cases he : strLTb z.2.2 x.2.2 = true
          · exfalso
            rcases strLTb_total x.2.2 y.2.2 with hf | hf | hf
            · have hzz := strLTb_trans _ _ _ he hf
              rw [h2] at hzz
              cases hzz
            · rw [h1] at hf
              cases hf
            · rw [← hf] at h2
              rw [h2] at he
              cases he
          · rw [Bool.not_eq_true] at he
            exact he
        · rw [if_neg hd] at h2
          rw [hc, if_neg hd]
          exact h2
      · rw [if_neg hc] at h1
        by_cases hd : y.2.1 = z.2.1
        · rw [if_pos hd] at h2
          rw [if_neg (fun he => hc (he.trans hd.symm)), ← hd]
          exact h1
        · rw [if_neg hd] at h2
          have hxz : ¬ x.2.1 = z.2.1 := by
            intro he
            have := strLTb_trans _ _ _ h1 h2
            rw [he] at this
            rw [strLTb_irrefl] at this
            cases this
          rw [if_neg hxz]
          exact strLTb_trans _ _ _ h1 h2
    · rw [if_neg hb] at h2
      rw [if_neg (fun he => hb (ha.symm.trans he)), ha]
      exact h2
  · rw [if_neg ha] at h1
    by_cases hb : y.1 = z.1
    · rw [if_neg (fun he => ha (he.trans hb.symm)), ← hb]
      exact h1
    · rw [if_neg hb] at h2
      have hxz : ¬ x.1 = z.1 := by
        intro he
        have := strLTb_trans _ _ _ h1 h2
        rw [he] at this
        rw [strLTb_irrefl] at this
        cases this
      rw [if_neg hxz]
      exact strLTb_trans _ _ _ h1 h2

theorem insSorted_perm {α : Type} (le : α → α → Bool) (x : α) (l : List α) :
    (insSorted le x l).Perm (x :: l) := by
  induction l with
  | nil => rfl
  | cons y rest ih =>
    rw [insSorted]
    by_cases h : le x y = true
    · rw [if_pos h]
    · rw [if_neg h]
      exact (ih.cons y).trans (List.Perm.swap x y rest)

theorem pySorted_perm {α : Type} (le : α → α → Bool) (l : List α) :
    (pySorted le l).Perm l := by
  induction l with
  | nil => rfl
  | cons x rest ih =>
    rw [pySorted]
    exact (insSorted_perm le x (pySorted le rest)).trans (ih.cons x)

theorem insSorted_pairwise {α : Type} (le : α → α → Bool)
    (htotal : ∀ a b, le a b = true ∨ le b a = true)
    (htrans : ∀ a b c, le a b = true → le b c = true → le a c = true)
    (x : α) (l : List α) (h : l.Pairwise (fun a b => le a b = true)) :
    (insSorted le x l).Pairwise (fun a b => le a b = true) := by
  induction l with
  | nil => simp [insSorted]
  | cons y rest ih =>
    rw [insSorted]
    rcases h with _ | ⟨hy, hrest⟩
    by_cases hxy : le x y = true
    · rw [if_pos hxy]
      refine List.Pairwise.cons ?_ (List.Pairwise.cons hy hrest)
      intro b hb
      rcases List.mem_cons.1 hb with hb | hb
      · rw [hb]
        exact hxy
      · exact htrans x y b hxy (hy b hb)
    · rw [if_neg hxy]
      refine List.Pairwise.cons ?_ (ih hrest)
      intro b hb
      have hb' := (insSorted_perm le x rest).mem_iff.1 hb
      rcases List.mem_cons.1 hb' with hb' | hb'
      · rw [hb']
        rcases htotal x y with h' | h'
        · exact absurd h' hxy
        · exact h'
      · exact hy b hb'

theorem pySorted_pairwise {α : Type} (le : α → α → Bool)
    (htotal : ∀ a b, le a b = true ∨ le b a = true)
    (htrans : ∀ a b c, le a b = true → le b c = true → le a c = true)
    (l : List α) : (pySorted le l).Pairwise (fun a b => le a b = true) := by
  induction l with
  | nil => simp [pySorted]
  | cons x rest ih => exact insSorted_pairwise le htotal htrans x _ ih

theorem pySorted_eq_of_perm (l1 l2 : List Entry3) (h : l1.Perm l2) :
    pySorted entryLEb l1 = pySorted entryLEb l2 := by
  have hperm : (pySorted entryLEb l1).Perm (pySorted entryLEb l2) :=
    ((pySorted_perm entryLEb l1).trans h).trans (pySorted_perm entryLEb l2).symm
  have hs1 := pySorted_pairwise entryLEb entryLEb_total entryLEb_trans l1
  have hs2 := pySorted_pairwise entryLEb entryLEb_total entryLEb_trans l2
  have hanti : IsAntisymm Entry3 (fun a b => entryLEb a b = true) :=
    ⟨entryLEb_antisymm⟩
  exact List.eq_of_perm_of_sorted hperm hs1 hs2

/-! ## Specification-side tree functions and the write correspondence -/

/-- Combined structural induction for the mutual tree type. -/
theorem tree_ind (P : TVal → Prop) (Q : TEntries → Prop)
    (hblob : ∀ oid, P (.blob oid))
    (hdir : ∀ entries, Q entries → P (.dir entries))
    (hnil : Q .nil)
    (hcons : ∀ n v rest, P v → Q rest → Q (.cons n v rest)) :
    (∀ v, P v) ∧ (∀ e, Q e) :=
  ⟨fun v => @TVal.rec P Q hblob hdir hnil hcons v,
   fun e => @TEntries.rec P Q hblob hdir hnil hcons e⟩

/-- The kind tag an entry contributes (`'blob'` or `'tree'`). -/
def valType : TVal → Str
  | .blob _ => "blob".toList
  | .dir _ => "tree".toList

mutual

/-- The id a value receives when written: a blob keeps its id, a directory
gets the digest of its serialized tree object. -/
def valOid (hash : Str → Str) : TVal → Str
  | .blob oid => oid
  | .dir entries =>
    hash ("tree".toList ++ nul :: serializeEntries (entriesSpec hash entries))

/-- The entry triples of one directory level, in entry order. -/
def entriesSpec (hash : Str → Str) : TEntries → List Entry3
  | .nil => []
  | .cons n v rest => (n, valOid hash v, valType v) :: entriesSpec hash rest

end

/-- The stored buffer of a directory's tree object. -/
def dirObj (hash : Str → Str) (entries : TEntries) : Str :=
  "tree".toList ++ nul :: serializeEntries (entriesSpec hash entries)

mutual

/-- All tree-object buffers written below a value, children first. -/
def valObjs (hash : Str → Str) : TVal → List Str
  | .blob _ => []
  | .dir entries => entObjs hash entries ++ [dirObj hash entries]

/-- All tree-object buffers written for a directory's children. -/
def entObjs (hash : Str → Str) : TEntries → List Str
  | .nil => []
  | .cons _ v rest => valObjs hash v ++ entObjs hash rest

end

mutual

/-- Nesting depth of a value (number of tree levels). -/
def valDepth : TVal → Nat
  | .blob _ => 0
  | .dir entries => entsDepth entries + 1

def entsDepth : TEntries → Nat
  | .nil => 0
  | .cons _ v rest => max (valDepth v) (entsDepth rest)

end

/-- Replay a list of object writes onto a store. -/
def writeObjs (hash : Str → Str) : Store → List Str → Store
  | st, [] => st
  | st, o :: rest => writeObjs hash (aset st (hash o) o) rest

theorem writeObjs_append (hash : Str → Str) (l1 l2 : List Str) :
    ∀ st : Store,
      writeObjs hash st (l1 ++ l2) = writeObjs hash (writeObjs hash st l1) l2 := by
  induction l1 with
  | nil => intro st; rfl
  | cons o rest ih =>
    intro st
    rw [List.cons_append, writeObjs, writeObjs]
    exact ih (aset st (hash o) o)

theorem valOid_dir (hash : Str → Str) (entries : TEntries) :
    valOid hash (.dir entries) = hash (dirObj hash entries) := by
  rw [valOid, dirObj]

/-- `writeVal`/`writeEntries` return the specification id and triples, and
grow the store by exactly the object list, in order. -/
theorem write_correspond (hash : Str → Str) :
    (∀ v : TVal, ∀ st : Store, writeVal hash v st =
      ((valOid hash v, valType v), writeObjs hash st (valObjs hash v)))
    ∧ (∀ e : TEntries, ∀ st : Store, writeEntries hash e st =
      (entriesSpec hash e, writeObjs hash st (entObjs hash e))) := by
  refine tree_ind
    (fun v => ∀ st : Store, writeVal hash v st =
      ((valOid hash v, valType v), writeObjs hash st (valObjs hash v)))
    (fun e => ∀ st : Store, writeEntries hash e st =
      (entriesSpec hash e, writeObjs hash st (entObjs hash e)))
    ?_ ?_ ?_ ?_
  · intro oid st
    rfl
  · intro entries ih st
    rw [writeVal, ih st]
    rw [valObjs, writeObjs_append]
    rw [valOid_dir, valType]
    rfl
  · intro st
    rfl
  · intro n v rest ihv ihe st
    simp only [writeEntries, ihv st, ihe (writeObjs hash st (valObjs hash v)),
      entriesSpec, entObjs, writeObjs_append]

theorem writeDir_correspond (hash : Str → Str) (e : TEntries) (st : Store) :
    writeDir hash e st =
      (hash (dirObj hash e),
       writeObjs hash st (entObjs hash e ++ [dirObj hash e])) := by
  rw [writeDir, (write_correspond hash).2 e st]
  rw [writeObjs_append]
  rfl

theorem alookup_writeObjs_not_mem (hash : Str → Str) (objs : List Str)
    (k : Str) (h : ∀ o ∈ objs, hash o ≠ k) :
    ∀ st : Store, alookup (writeObjs hash st objs) k = alookup st k := by
  induction objs with
  | nil => intro st; rfl
  | cons o rest ih =>
    intro st
    rw [writeObjs]
    rw [ih (fun o' ho' => h o' (List.mem_cons_of_mem o ho'))]
    exact alookup_aset_ne st (hash o) k o (fun he => h o (List.mem_cons_self o rest) he.symm)

theorem alookup_writeObjs_mem (hash : Str → Str) (objs : List Str) (o : Str)
    (ho : o ∈ objs) (hinj : ∀ o' ∈ objs, hash o' = hash o → o' = o) :
    ∀ st : Store, alookup (writeObjs hash st objs) (hash o) = some o := by
  induction objs with
  | nil => cases ho
  | cons o' rest ih =>
    intro st
    rw [writeObjs]
    by_cases hm : o ∈ rest
    · exact ih hm (fun o'' ho'' => hinj o'' (List.mem_cons_of_mem o' ho'')) _
    · have ho' : o' = o := by
        rcases List.mem_cons.1 ho with h | h
        · exact h.symm
        · exact absurd h hm
      subst ho'
      have hnone : ∀ o'' ∈ rest, hash o'' ≠ hash o' := by
        intro o'' ho'' he
        exact hm (hinj o'' (List.mem_cons_of_mem o' ho'') he ▸ ho'')
      rw [alookup_writeObjs_not_mem hash rest (hash o') hnone
        (aset st (hash o') o')]
      exact alookup_aset_self st (hash o') o'

/-! ## Serialization and parsing lemmas -/

theorem go_break (acc rest : Str) :
    pySplitLinesGo acc ('\n' :: rest) = acc.reverse :: pySplitLinesGo [] rest := rfl

theorem go_norm (acc : Str) (c : Char) (rest : Str) (hc : isLineBreak c = false) :
    pySplitLinesGo acc (c :: rest) = pySplitLinesGo (c :: acc) rest := by
  rw [pySplitLinesGo.eq_def]
  split
  · rename_i heq
    cases heq
  · rename_i heq
    rw [List.cons.injEq] at heq
    rw [heq.1] at hc
    simp [isLineBreak, lineBreakChars] at hc
  · rename_i h1 h2
    rw [List.cons.injEq] at h2
    obtain ⟨he1, he2⟩ := h2
    subst he1
    subst he2
    rw [if_neg (by rw [hc]; exact Bool.false_ne_true)]

theorem go_line (l : Str) (hl : ∀ c ∈ l, isLineBreak c = false) :
    ∀ acc rest, pySplitLinesGo acc (l ++ '\n' :: rest) =
      (acc.reverse ++ l) :: pySplitLinesGo [] rest := by
  induction l with
  | nil =>
    intro acc rest
    rw [List.nil_append, go_break, List.append_nil]
  | cons c l' ih =>
    intro acc rest
    rw [List.cons_append, go_norm acc c _ (hl c (List.mem_cons_self c l'))]
    rw [ih (fun c' h' => hl c' (List.mem_cons_of_mem c h')) (c :: acc) rest]
    rw [List.reverse_cons, List.append_assoc, List.singleton_append]

theorem splitLines_flatten (lines : List Str)
    (h : ∀ l ∈ lines, ∀ c ∈ l, isLineBreak c = false) :
    pySplitLines ((lines.map (fun l => l ++ ['\n'])).flatten) = lines := by
  induction lines with
  | nil => rfl
  | cons l rest ih =>
    rw [List.map_cons, List.flatten_cons, pySplitLines]
    rw [List.append_assoc, List.singleton_append]
    rw [go_line l (h l (List.mem_cons_self l rest)) [] _]
    rw [List.reverse_nil, List.nil_append]
    have hrest := ih (fun l' h' => h l' (List.mem_cons_of_mem l h'))
    rw [pySplitLines] at hrest
    rw [hrest]

theorem splitFirst_append (c : Char) (l r : Str) (hl : c ∉ l) :
    splitFirst c (l ++ c :: r) = some (l, r) := by
  induction l with
  | nil =>
    rw [List.nil_append, splitFirst, if_pos rfl]
  | cons d l' ih =>
    rw [List.cons_append, splitFirst]
    have hd : ¬ d = c := fun he => hl (he ▸ List.mem_cons_self d l')
    rw [if_neg hd, ih (fun hm => hl (List.mem_cons_of_mem d hm))]

/-- The part of a serialized tree line before the newline. -/
def entryCore (e : Entry3) : Str := e.2.2 ++ ' ' :: e.2.1 ++ ' ' :: e.1

theorem entryLine_eq (e : Entry3) : entryLine e = entryCore e ++ ['\n'] := rfl

theorem parseEntry_core (ty oid name : Str) (hty : ' ' ∉ ty) (hoid : ' ' ∉ oid) :
    parseEntry (ty ++ ' ' :: (oid ++ ' ' :: name)) = .ok (ty, oid, name) := by
  simp only [parseEntry, splitFirst_append ' ' ty (oid ++ ' ' :: name) hty,
    splitFirst_append ' ' oid name hoid]

theorem mapM_map_ok {α β γ : Type} (h : α → β) (f : β → Except String γ)
    (g : α → γ) :
    ∀ l : List α, (∀ x ∈ l, f (h x) = .ok (g x)) →
      (l.map h).mapM f = .ok (l.map g) := by
  intro l
  induction l with
  | nil => intro _; rfl
  | cons x rest ih =>
    intro hall
    rw [List.map_cons, List.mapM_cons]
    rw [hall x (List.mem_cons_self x rest)]
    simp only [Bind.bind, Except.bind]
    rw [ih (fun y hy => hall y (List.mem_cons_of_mem x hy))]
    rfl

theorem serializeEntries_lines (es : List Entry3) :
    serializeEntries es =
      (((pySorted entryLEb es).map entryCore).map (fun l => l ++ ['\n'])).flatten := by
  rw [serializeEntries, List.map_map]
  rfl

/-- Reading a stored tree object back parses the sorted entry triples, with
type and name swapped into `_iter_tree_entries` order. -/
theorem iter_tree_entries_spec (st : Store) (oid : Str) (es : List Entry3)
    (hne : oid ≠ [])
    (hlook : alookup st oid = some ("tree".toList ++ nul :: serializeEntries es))
    (hgood : ∀ t ∈ pySorted entryLEb es,
      (' ' ∉ t.2.2) ∧ (' ' ∉ t.2.1) ∧ ∀ c ∈ entryCore t, isLineBreak c = false) :
    iter_tree_entries st (some oid) =
      .ok ((pySorted entryLEb es).map (fun t => (t.2.2, t.2.1, t.1))) := by
  rw [iter_tree_entries]
  simp only [if_neg hne]
  have hobj : get_object st oid (some "tree".toList) = .ok (serializeEntries es) := by
    simp only [get_object, hlook]
    rw [splitFirst_append nul "tree".toList (serializeEntries es) (by decide)]
    exact rfl
  simp only [Bind.bind, Except.bind, hobj]
  rw [serializeEntries_lines]
  rw [splitLines_flatten _ (by
    intro l hl c hc
    rcases List.mem_map.1 hl with ⟨t, ht, hteq⟩
    exact (hgood t ht).2.2 c (hteq ▸ hc))]
  exact mapM_map_ok entryCore parseEntry (fun t => (t.2.2, t.2.1, t.1)) _
    (by
      intro t ht
      simpa only [entryCore, List.append_assoc, List.cons_append] using
        parseEntry_core t.2.2 t.2.1 t.1 (hgood t ht).1 (hgood t ht).2.1)

/-! ## Path segment algebra -/

/-- Join segments with `'/'` (inverse of `pySplitOn '/'` on its image). -/
def joinSegs : List Str → Str
  | [] => []
  | [s] => s
  | s :: rest => s ++ '/' :: joinSegs rest

/-- The segment lists considered: nonempty, each segment free of `'/'`. -/
def segsOk (s : List Str) : Prop := s ≠ [] ∧ ∀ seg ∈ s, ('/' : Char) ∉ seg

theorem pySplitOn_ne_nil (c : Char) (s : Str) : pySplitOn c s ≠ [] := by
  cases s with
  | nil => simp [pySplitOn]
  | cons d rest =>
    rw [pySplitOn]
    by_cases h : d = c
    · simp [h]
    · simp [h]

theorem pySplitOn_not_mem (c : Char) (s : Str) :
    ∀ seg ∈ pySplitOn c s, c ∉ seg := by
  induction s with
  | nil =>
    intro seg hseg
    rw [pySplitOn] at hseg
    rcases List.mem_singleton.1 hseg with h
    rw [h]
    simp
  | cons d rest ih =>
    intro seg hseg
    rw [pySplitOn] at hseg
    rcases hsp : pySplitOn c rest with _ | ⟨h0, t0⟩
    · exact absurd hsp (pySplitOn_ne_nil c rest)
    · rw [hsp] at hseg
      by_cases h : d = c
      · rw [if_pos h] at hseg
        rcases List.mem_cons.1 hseg with h' | h'
        · rw [h']
          simp
        · exact ih seg (by rw [hsp]; exact h')
      · rw [if_neg h] at hseg
        simp only [List.headI, List.tail] at hseg
        rcases List.mem_cons.1 hseg with h' | h'
        · rw [h']
          intro hmem
          rcases List.mem_cons.1 hmem with h'' | h''
          · exact h h''.symm
          · exact ih h0 (by rw [hsp]; exact List.mem_cons_self h0 t0) h''
        · exact ih seg (by rw [hsp]; exact List.mem_cons_of_mem h0 h')

theorem joinSegs_cons (s : Str) (rest : List Str) (h : rest ≠ []) :
    joinSegs (s :: rest) = s ++ '/' :: joinSegs rest := by
  cases rest with
  | nil => exact absurd rfl h
  | cons r rs => rfl

theorem joinSegs_splitOn (p : Str) : joinSegs (pySplitOn '/' p) = p := by
  induction p with
  | nil => rfl
  | cons d rest ih =>
    rw [pySplitOn]
    by_cases h : d = '/'
    · rw [if_pos h]
      rw [joinSegs_cons [] _ (pySplitOn_ne_nil '/' rest)]
      rw [List.nil_append, ih, h]
    · rw [if_neg h]
      rcases hsp : pySplitOn '/' rest with _ | ⟨h0, t0⟩
      · exact absurd hsp (pySplitOn_ne_nil '/' rest)
      · rw [hsp] at ih
        simp only [List.headI, List.tail]
        cases t0 with
        | nil =>
          rw [joinSegs] at ih ⊢
          rw [ih]
        | cons t1 ts =>
          rw [joinSegs_cons (d :: h0) (t1 :: ts) (by simp)]
          rw [joinSegs_cons h0 (t1 :: ts) (by simp)] at ih
          rw [List.cons_append, ih]

theorem splitOn_slashfree (s : Str) (h : ('/' : Char) ∉ s) :
    pySplitOn '/' s = [s] := by
  induction s with
  | nil => rfl
  | cons d rest ih =>
    rw [pySplitOn]
    have hd : ¬ d = '/' := fun he => h (he ▸ List.mem_cons_self d rest)
    rw [if_neg hd]
    rw [ih (fun hm => h (List.mem_cons_of_mem d hm))]
    rfl

theorem splitOn_slash_append (seg t : Str) (hseg : ('/' : Char) ∉ seg) :
    pySplitOn '/' (seg ++ '/' :: t) = seg :: pySplitOn '/' t := by
  induction seg with
  | nil =>
    rw [List.nil_append, pySplitOn, if_pos rfl]
  | cons c cs ih =>
    have hc : ¬ c = '/' := fun he => hseg (he ▸ List.mem_cons_self c cs)
    rw [List.cons_append, pySplitOn, if_neg hc]
    rw [ih (fun hm => hseg (List.mem_cons_of_mem c hm))]
    rfl

theorem splitOn_joinSegs (s : List Str) (hs : segsOk s) :
    pySplitOn '/' (joinSegs s) = s := by
  obtain ⟨hne, hsf⟩ := hs
  induction s with
  | nil => exact absurd rfl hne
  | cons seg rest ih =>
    cases rest with
    | nil =>
      rw [joinSegs]
      exact splitOn_slashfree seg (hsf seg (List.mem_cons_self seg []))
    | cons r rs =>
      rw [joinSegs_cons seg (r :: rs) (by simp)]
      rw [splitOn_slash_append seg _ (hsf seg (List.mem_cons_self seg _))]
      rw [ih (by simp) (fun x hx => hsf x (List.mem_cons_of_mem seg hx))]

theorem segsOk_splitOn (p : Str) : segsOk (pySplitOn '/' p) :=
  ⟨pySplitOn_ne_nil '/' p, fun seg hseg => pySplitOn_not_mem '/' p seg hseg⟩

theorem joinSegs_inj (s1 s2 : List Str) (h1 : segsOk s1) (h2 : segsOk s2)
    (h : joinSegs s1 = joinSegs s2) : s1 = s2 := by
  have h' := splitOn_joinSegs s1 h1
  rw [h, splitOn_joinSegs s2 h2] at h'
  exact h'.symm

/-- A key starting with `base ++ name` and continuing with nothing or a
slash-prefixed remainder determines the name (for slash-free names). -/
theorem name_of_key (n1 n2 r1 r2 : Str) (hn1 : ('/' : Char) ∉ n1)
    (hn2 : ('/' : Char) ∉ n2)
    (hr1 : r1 = [] ∨ ∃ q, r1 = '/' :: q) (hr2 : r2 = [] ∨ ∃ q, r2 = '/' :: q)
    (h : n1 ++ r1 = n2 ++ r2) : n1 = n2 ∧ r1 = r2 := by
  have htake : ∀ (n r : Str), ('/' : Char) ∉ n → (r = [] ∨ ∃ q, r = '/' :: q) →
      (n ++ r).takeWhile (fun c => ! (c = '/' : Bool)) = n := by
    intro n r hn hr
    induction n with
    | nil =>
      rcases hr with hr | ⟨q, hr⟩
      · rw [hr]
        rfl
      · rw [hr, List.nil_append]
        rw [List.takeWhile_cons]
        simp
    | cons c cs ih =>
      have hc : ¬ c = '/' := fun he => hn (he ▸ List.mem_cons_self c cs)
      rw [List.cons_append, List.takeWhile_cons, if_pos (by simp [hc])]
      rw [ih (fun hm => hn (List.mem_cons_of_mem c hm))]
  have he1 := htake n1 r1 hn1 hr1
  have he2 := htake n2 r2 hn2 hr2
  rw [h] at he1
  rw [he2] at he1
  refine ⟨he1.symm, ?_⟩
  rw [he1] at h
  exact List.append_cancel_left h

/-- The tail of a joined nonempty-headed segment list: empty or slash-led. -/
theorem joinSegs_tail_shape (n : Str) (s : List Str) :
    ∃ r, joinSegs (n :: s) = n ++ r ∧ (r = [] ∨ ∃ q, r = '/' :: q) := by
  cases s with
  | nil => exact ⟨[], by rw [joinSegs, List.append_nil], Or.inl rfl⟩
  | cons a as =>
    exact ⟨'/' :: joinSegs (a :: as), joinSegs_cons n (a :: as) (by simp),
      Or.inr ⟨joinSegs (a :: as), rfl⟩⟩

/-! ## More association-list lemmas -/

theorem alookup_none_of_not_mem {β : Type} (l : List (Str × β)) (k : Str)
    (h : k ∉ l.map Prod.fst) : alookup l k = none := by
  induction l with
  | nil => rfl
  | cons p rest ih =>
    simp only [List.map_cons, List.mem_cons, not_or] at h
    rw [alookup, if_neg (fun he => h.1 he.symm)]
    exact ih h.2

theorem alookup_mem_of_some {β : Type} (l : List (Str × β)) (k : Str) (v : β)
    (h : alookup l k = some v) : k ∈ l.map Prod.fst := by
  induction l with
  | nil => cases h
  | cons p rest ih =>
    rw [alookup] at h
    by_cases hp : p.1 = k
    · rw [List.map_cons, hp]
      exact List.mem_cons_self k _
    · rw [if_neg hp] at h
      exact List.mem_cons_of_mem p.1 (ih h)

theorem aset_fresh_append {β : Type} (l : List (Str × β)) (k : Str) (v : β)
    (h : k ∉ l.map Prod.fst) : aset l k v = l ++ [(k, v)] := by
  induction l with
  | nil => rfl
  | cons p rest ih =>
    simp only [List.map_cons, List.mem_cons, not_or] at h
    rw [aset, if_neg (fun he => h.1 he.symm), ih h.2]
    rfl

theorem alookup_append_left {β : Type} (l1 l2 : List (Str × β)) (k : Str)
    (h : k ∈ l1.map Prod.fst) : alookup (l1 ++ l2) k = alookup l1 k := by
  induction l1 with
  | nil => cases h
  | cons p rest ih =>
    rw [List.cons_append, alookup, alookup]
    by_cases hp : p.1 = k
    · rw [if_pos hp, if_pos hp]
    · rw [if_neg hp, if_neg hp]
      rcases List.mem_cons.1 h with h' | h'
      · exact absurd h'.symm hp
      · exact ih h'

theorem alookup_append_right {β : Type} (l1 l2 : List (Str × β)) (k : Str)
    (h : k ∉ l1.map Prod.fst) : alookup (l1 ++ l2) k = alookup l2 k := by
  induction l1 with
  | nil => rfl
  | cons p rest ih =>
    simp only [List.map_cons, List.mem_cons, not_or] at h
    rw [List.cons_append, alookup, if_neg (fun he => h.1 he.symm)]
    exact ih h.2

theorem aupdate_fresh_append {β : Type} (l1 l2 : List (Str × β))
    (hdisj : ∀ k ∈ l2.map Prod.fst, k ∉ l1.map Prod.fst)
    (hnodup : (l2.map Prod.fst).Nodup) : aupdate l1 l2 = l1 ++ l2 := by
  induction l2 generalizing l1 with
  | nil => simp [aupdate]
  | cons p rest ih =>
    rw [aupdate, List.foldl_cons]
    have h1 : aset l1 p.1 p.2 = l1 ++ [p] := by
      rw [aset_fresh_append l1 p.1 p.2
        (hdisj p.1 (by rw [List.map_cons]; exact List.mem_cons_self p.1 _))]
    rw [h1]
    simp only [List.map_cons, List.nodup_cons] at hnodup
    have := ih (l1 ++ [p]) (by
      intro k hk
      rw [List.map_append]
      intro hmem
      rcases List.mem_append.1 hmem with hm | hm
      · exact hdisj k (by rw [List.map_cons]; exact List.mem_cons_of_mem p.1 hk) hm
      · simp only [List.map_cons, List.map_nil, List.mem_singleton] at hm
        exact hnodup.1 (hm ▸ hk)) hnodup.2
    rw [aupdate] at this
    rw [this, List.append_assoc]
    rfl

/-! ## Tree well-formedness and lookup by segments -/

/-- A valid entry name: no separator, not a dot name, no line break. -/
def goodName (n : Str) : Prop :=
  ('/' : Char) ∉ n ∧ n ≠ ".".toList ∧ n ≠ "..".toList
    ∧ ∀ c ∈ n, isLineBreak c = false

/-- A valid blob id as embedded in a tree line: no space, no line break. -/
def goodOid (o : Str) : Prop := (' ' : Char) ∉ o ∧ ∀ c ∈ o, isLineBreak c = false

/-- The names of one directory level, in order. -/
def names : TEntries → List Str
  | .nil => []
  | .cons n _ rest => n :: names rest

/-- Directories reached through entries are never empty (as built by
`index_as_tree`, every created directory receives a blob beneath it). -/
def dirNonempty : TVal → Prop
  | .blob _ => True
  | .dir .nil => False
  | .dir (.cons _ _ _) => True

mutual

/-- Well-formed value: blobs carry valid ids, directories have distinct
names and well-formed entries. -/
def WFv : TVal → Prop
  | .blob oid => goodOid oid
  | .dir e => (names e).Nodup ∧ WFe e

/-- Well-formed entry list: valid names, nonempty subdirectories,
recursively well-formed values. -/
def WFe : TEntries → Prop
  | .nil => True
  | .cons n v rest => goodName n ∧ dirNonempty v ∧ WFv v ∧ WFe rest

end

/-- Well-formed directory level. -/
def WFlevel (e : TEntries) : Prop := (names e).Nodup ∧ WFe e

/-- Follow segments through the nested dictionary to a blob id. -/
def lookupSegs : TEntries → List Str → Option Str
  | _, [] => none
  | e, [s] =>
    match elookup e s with
    | some (.blob oid) => some oid
    | _ => none
  | e, s :: rest =>
    match elookup e s with
    | some (.dir sub) => lookupSegs sub rest
    | _ => none

theorem lookupSegs_nil_entries (s : List Str) : lookupSegs .nil s = none := by
  cases s with
  | nil => rfl
  | cons a rest =>
    cases rest with
    | nil => rfl
    | cons b rest' => rfl

/-- Induction principle for a single level of entries (trivial value motive). -/
theorem entries_ind (Q : TEntries → Prop) (hnil : Q .nil)
    (hcons : ∀ n v rest, Q rest → Q (.cons n v rest)) : ∀ e, Q e :=
  @TEntries.rec (fun _ => True) Q (fun _ => trivial) (fun _ _ => trivial) hnil
    (fun n v rest _ hq => hcons n v rest hq)

theorem elookup_eset_self (e : TEntries) (k : Str) (v : TVal) :
    elookup (eset e k v) k = some v := by
  induction e using entries_ind with
  | hnil => simp [eset, elookup]
  | hcons n v0 rest ih =>
    by_cases h : n = k
    · simp [eset, h, elookup]
    · simp [eset, h, elookup, ih]

theorem elookup_eset_ne (e : TEntries) (k k' : Str) (v : TVal) (h : k' ≠ k) :
    elookup (eset e k v) k' = elookup e k' := by
  have h' : ¬ k = k' := fun he => h he.symm
  induction e using entries_ind with
  | hnil => simp [eset, elookup, h']
  | hcons n v0 rest ih =>
    by_cases hn : n = k
    · subst hn
      simp [eset, elookup, h']
    · simp [eset, hn, elookup, ih]

theorem names_eset_mem (e : TEntries) (k : Str) (v : TVal) (x : Str) :
    x ∈ names (eset e k v) ↔ x ∈ names e ∨ x = k := by
  induction e using entries_ind with
  | hnil => simp [eset, names, eq_comm]
  | hcons n v0 rest ih =>
    by_cases hn : n = k
    · subst hn
      simp only [eset, if_pos rfl, names, List.mem_cons]
      constructor
      · rintro (h | h)
        · exact Or.inr h
        · exact Or.inl (Or.inr h)
      · rintro ((h | h) | h)
        · exact Or.inl h
        · exact Or.inr h
        · exact Or.inl h
    · simp only [eset, if_neg hn, names, List.mem_cons, ih]
      constructor
      · rintro (h | (h | h))
        · exact Or.inl (Or.inl h)
        · exact Or.inl (Or.inr h)
        · exact Or.inr h
      · rintro ((h | h) | h)
        · exact Or.inl h
        · exact Or.inr (Or.inl h)
        · exact Or.inr (Or.inr h)

theorem names_eset_nodup (e : TEntries) (k : Str) (v : TVal)
    (h : (names e).Nodup) : (names (eset e k v)).Nodup := by
  induction e using entries_ind with
  | hnil => simp [eset, names]
  | hcons n v0 rest ih =>
    rw [names] at h
    rcases List.nodup_cons.1 h with ⟨hn, hrest⟩
    by_cases hk : n = k
    · subst hk
      simp only [eset, if_pos rfl, names, List.nodup_cons]
      exact ⟨hn, hrest⟩
    · simp only [eset, if_neg hk, names, List.nodup_cons]
      refine ⟨fun hmem => ?_, ih hrest⟩
      rcases (names_eset_mem rest k v n).1 hmem with h' | h'
      · exact hn h'
      · exact hk h'

theorem elookup_none_of_not_mem (e : TEntries) (k : Str)
    (h : k ∉ names e) : elookup e k = none := by
  induction e using entries_ind with
  | hnil => rfl
  | hcons n v rest ih =>
    rw [names] at h
    simp only [List.mem_cons, not_or] at h
    rw [elookup, if_neg (fun he => h.1 he.symm)]
    exact ih h.2

theorem WFe_eset (e : TEntries) (k : Str) (v : TVal) (hk : goodName k)
    (hv : WFv v) (hnev : dirNonempty v) (he : WFe e) : WFe (eset e k v) := by
  induction e using entries_ind with
  | hnil =>
    rw [eset]
    exact ⟨hk, hnev, hv, trivial⟩
  | hcons n v0 rest ih =>
    rw [WFe] at he
    obtain ⟨hn, hne0, hv0, hrest⟩ := he
    by_cases hkn : n = k
    · subst hkn
      rw [eset, if_pos rfl, WFe]
      exact ⟨hk, hnev, hv, hrest⟩
    · rw [eset, if_neg hkn, WFe]
      exact ⟨hn, hne0, hv0, ih hrest⟩

theorem WFv_of_elookup (e : TEntries) (k : Str) (v : TVal)
    (he : WFe e) (h : elookup e k = some v) : WFv v ∧ dirNonempty v := by
  induction e using entries_ind with
  | hnil => cases h
  | hcons n v0 rest ih =>
    rw [WFe] at he
    obtain ⟨_, hne0, hv0, hrest⟩ := he
    rw [elookup] at h
    by_cases hn : n = k
    · rw [if_pos hn] at h
      cases h
      exact ⟨hv0, hne0⟩
    · rw [if_neg hn] at h
      exact ih hrest h

theorem lookupSegs_single (e : TEntries) (m : Str) :
    lookupSegs e [m] =
      match elookup e m with
      | some (.blob oid) => some oid
      | _ => none := rfl

theorem lookupSegs_cons2 (e : TEntries) (m s2 : Str) (rest : List Str) :
    lookupSegs e (m :: s2 :: rest) =
      match elookup e m with
      | some (.dir sub) => lookupSegs sub (s2 :: rest)
      | _ => none := rfl

theorem lookupSegs_cons_congr (e e' : TEntries) (m : Str) (s : List Str)
    (h : elookup e' m = elookup e m) :
    lookupSegs e' (m :: s) = lookupSegs e (m :: s) := by
  cases s with
  | nil => rw [lookupSegs_single, lookupSegs_single, h]
  | cons a r => rw [lookupSegs_cons2, lookupSegs_cons2, h]

theorem lookupSegs_none_head (e : TEntries) (m : Str) (s : List Str)
    (h : elookup e m = none) : lookupSegs e (m :: s) = none := by
  cases s with
  | nil => rw [lookupSegs_single, h]
  | cons a r => rw [lookupSegs_cons2, h]

theorem lookupSegs_blob_single (e : TEntries) (m b : Str)
    (h : elookup e m = some (.blob b)) : lookupSegs e [m] = some b := by
  rw [lookupSegs_single, h]

theorem lookupSegs_blob_cons2 (e : TEntries) (m b s2 : Str) (r : List Str)
    (h : elookup e m = some (.blob b)) : lookupSegs e (m :: s2 :: r) = none := by
  rw [lookupSegs_cons2, h]

theorem lookupSegs_dir_single (e : TEntries) (m : Str) (sub : TEntries)
    (h : elookup e m = some (.dir sub)) : lookupSegs e [m] = none := by
  rw [lookupSegs_single, h]

theorem lookupSegs_dir_head (e : TEntries) (m : Str) (sub : TEntries)
    (s : List Str) (h : elookup e m = some (.dir sub)) (hs : s ≠ []) :
    lookupSegs e (m :: s) = lookupSegs sub s := by
  cases s with
  | nil => exact absurd rfl hs
  | cons a r => rw [lookupSegs_cons2, h]

theorem eset_ne_nil (e : TEntries) (k : Str) (v : TVal) : eset e k v ≠ .nil := by
  intro h
  have hk : k ∈ names (eset e k v) := (names_eset_mem e k v k).2 (Or.inr rfl)
  rw [h] at hk
  simp [names] at hk

/-- The setdefault walk of `write_tree`: on success the inserted path maps to
the new id, paths not extending it are untouched, and strict extensions read
`none` (the leaf is a blob). -/
theorem insertPath_spec (segs : List Str) :
    ∀ (t t' : TEntries) (oid : Str),
      insertPath t segs oid = .ok t' →
      lookupSegs t' segs = some oid
      ∧ (∀ s', ¬ (segs <+: s') → lookupSegs t' s' = lookupSegs t s')
      ∧ (∀ s', segs <+: s' → s' ≠ segs → lookupSegs t' s' = none) := by
  induction segs with
  | nil =>
    intro t t' oid hins
    rw [insertPath] at hins
    cases hins
  | cons seg rest ih =>
    intro t t' oid hins
    cases rest with
    | nil =>
      rw [insertPath] at hins
      cases hins
      refine ⟨lookupSegs_blob_single _ seg oid (elookup_eset_self t seg _), ?_, ?_⟩
      · intro s' hpre
        cases s' with
        | nil => rfl
        | cons m s'' =>
          have hm : m ≠ seg := by
            intro he
            subst he
            exact hpre (List.cons_prefix_cons.2 ⟨rfl, List.nil_prefix⟩)
          exact lookupSegs_cons_congr t _ m s'' (elookup_eset_ne t seg m _ hm)
      · intro s' hpre hne
        cases s' with
        | nil => simp at hpre
        | cons m s'' =>
          rcases List.cons_prefix_cons.1 hpre with ⟨hm, _⟩
          subst hm
          cases s'' with
          | nil => exact absurd rfl hne
          | cons a r =>
            exact lookupSegs_blob_cons2 _ seg oid a r (elookup_eset_self t seg _)
    | cons s2 rest2 =>
      rw [insertPath] at hins
      case x_3 => exact fun h => List.noConfusion h
      cases hel : elookup t seg with
      | none =>
        rw [hel] at hins
        simp only [Bind.bind, Except.bind] at hins
        split at hins
        · cases hins
        · rename_i sub' hsub
          cases hins
          obtain ⟨iha, ihb, ihc⟩ := ih TEntries.nil sub' oid hsub
          refine ⟨?_, ?_, ?_⟩
          · rw [lookupSegs_dir_head _ seg sub' _ (elookup_eset_self t seg _)
              (List.cons_ne_nil s2 rest2)]
            exact iha
          · intro s' hpre
            cases s' with
            | nil => rfl
            | cons m s'' =>
              by_cases hm : m = seg
              · subst hm
                have hr : ¬ ((s2 :: rest2) <+: s'') := fun h =>
                  hpre (List.cons_prefix_cons.2 ⟨rfl, h⟩)
                rw [lookupSegs_none_head t m s'' hel]
                cases s'' with
                | nil => exact lookupSegs_dir_single _ m sub' (elookup_eset_self t m _)
                | cons a r =>
                  rw [lookupSegs_dir_head _ m sub' _ (elookup_eset_self t m _)
                    (List.cons_ne_nil a r)]
                  rw [ihb (a :: r) hr]
                  exact lookupSegs_nil_entries _
              · exact lookupSegs_cons_congr t _ m s'' (elookup_eset_ne t seg m _ hm)
          · intro s' hpre hne
            cases s' with
            | nil => simp at hpre
            | cons m s'' =>
              rcases List.cons_prefix_cons.1 hpre with ⟨hm, hrest⟩
              subst hm
              have hne'' : s'' ≠ s2 :: rest2 := fun h => hne (by rw [h])
              cases s'' with
              | nil => simp at hrest
              | cons a r =>
                rw [lookupSegs_dir_head _ seg sub' _ (elookup_eset_self t seg _)
                  (List.cons_ne_nil a r)]
                exact ihc (a :: r) hrest hne''
      | some v =>
        rw [hel] at hins
        cases v with
        | blob b =>
          simp only [Bind.bind, Except.bind] at hins
          cases hins
        | dir sub =>
          simp only [Bind.bind, Except.bind] at hins
          split at hins
          · cases hins
          · rename_i sub' hsub
            cases hins
            obtain ⟨iha, ihb, ihc⟩ := ih sub sub' oid hsub
            refine ⟨?_, ?_, ?_⟩
            · rw [lookupSegs_dir_head _ seg sub' _ (elookup_eset_self t seg _)
                (List.cons_ne_nil s2 rest2)]
              exact iha
            · intro s' hpre
              cases s' with
              | nil => rfl
              | cons m s'' =>
                by_cases hm : m = seg
                · subst hm
                  have hr : ¬ ((s2 :: rest2) <+: s'') := fun h =>
                    hpre (List.cons_prefix_cons.2 ⟨rfl, h⟩)
                  cases s'' with
                  | nil =>
                    rw [lookupSegs_dir_single _ m sub' (elookup_eset_self t m _)]
                    rw [lookupSegs_dir_single t m sub hel]
                  | cons a r =>
                    rw [lookupSegs_dir_head _ m sub' _ (elookup_eset_self t m _)
                      (List.cons_ne_nil a r)]
                    rw [lookupSegs_dir_head t m sub _ hel (List.cons_ne_nil a r)]
                    exact ihb (a :: r) hr
                · exact lookupSegs_cons_congr t _ m s'' (elookup_eset_ne t seg m _ hm)
            · intro s' hpre hne
              cases s' with
              | nil => simp at hpre
              | cons m s'' =>
                rcases List.cons_prefix_cons.1 hpre with ⟨hm, hrest⟩
                subst hm
                have hne'' : s'' ≠ s2 :: rest2 := fun h => hne (by rw [h])
                cases s'' with
                | nil => simp at hrest
                | cons a r =>
                  rw [lookupSegs_dir_head _ seg sub' _ (elookup_eset_self t seg _)
                    (List.cons_ne_nil a r)]
                  exact ihc (a :: r) hrest hne''

/-- The setdefault walk succeeds when no proper prefix of the path already
holds a blob. -/
theorem insertPath_ok (segs : List Str) :
    ∀ (t : TEntries) (oid : Str), segs ≠ [] →
      (∀ q, q <+: segs → q ≠ segs → lookupSegs t q = none) →
      ∃ t', insertPath t segs oid = .ok t' := by
  induction segs with
  | nil =>
    intro t oid h _
    exact absurd rfl h
  | cons seg rest ih =>
    intro t oid _ hq
    cases rest with
    | nil => exact ⟨eset t seg (.blob oid), rfl⟩
    | cons s2 rest2 =>
      cases hel : elookup t seg with
      | none =>
        obtain ⟨sub', hsub⟩ := ih TEntries.nil oid (List.cons_ne_nil s2 rest2)
          (fun q _ _ => lookupSegs_nil_entries q)
        refine ⟨eset t seg (.dir sub'), ?_⟩
        simp only [insertPath, hel, hsub, Bind.bind, Except.bind]
      | some v =>
        cases v with
        | blob b =>
          have hpre : [seg] <+: seg :: s2 :: rest2 :=
            List.cons_prefix_cons.2 ⟨rfl, List.nil_prefix⟩
          have hne : [seg] ≠ seg :: s2 :: rest2 := by simp
          have h1 := hq [seg] hpre hne
          rw [lookupSegs_blob_single t seg b hel] at h1
          cases h1
        | dir sub =>
          obtain ⟨sub', hsub⟩ := ih sub oid (List.cons_ne_nil s2 rest2) (by
            intro q hqpre hqne
            cases q with
            | nil => rfl
            | cons a r =>
              have hpre : seg :: a :: r <+: seg :: s2 :: rest2 :=
                List.cons_prefix_cons.2 ⟨rfl, hqpre⟩
              have hne : seg :: a :: r ≠ seg :: s2 :: rest2 := by
                intro h
                exact hqne (List.cons.injEq .. ▸ congrArg List.tail h)
              have h1 := hq (seg :: a :: r) hpre hne
              rw [lookupSegs_dir_head t seg sub _ hel (List.cons_ne_nil a r)] at h1
              exact h1)
          refine ⟨eset t seg (.dir sub'), ?_⟩
          simp only [insertPath, hel, hsub, Bind.bind, Except.bind]

theorem insertPath_ne_nil (segs : List Str) (t t' : TEntries) (oid : Str)
    (hins : insertPath t segs oid = .ok t') : t' ≠ .nil := by
  cases segs with
  | nil =>
    rw [insertPath] at hins
    cases hins
  | cons seg rest =>
    cases rest with
    | nil =>
      rw [insertPath] at hins
      cases hins
      exact eset_ne_nil t seg _
    | cons s2 rest2 =>
      rw [insertPath] at hins
      case x_3 => exact fun h => List.noConfusion h
      cases hel : elookup t seg with
      | none =>
        rw [hel] at hins
        simp only [Bind.bind, Except.bind] at hins
        split at hins
        · cases hins
        · rename_i sub' hsub
          cases hins
          exact eset_ne_nil t seg _
      | some v =>
        rw [hel] at hins
        cases v with
        | blob b =>
          simp only [Bind.bind, Except.bind] at hins
          cases hins
        | dir sub =>
          simp only [Bind.bind, Except.bind] at hins
          split at hins
          · cases hins
          · rename_i sub' hsub
            cases hins
            exact eset_ne_nil t seg _

/-- The setdefault walk preserves well-formedness of the level (and produces
only nonempty subdirectories). -/
theorem insertPath_WF (segs : List Str) :
    ∀ (t t' : TEntries) (oid : Str),
      (∀ seg ∈ segs, goodName seg) → goodOid oid →
      insertPath t segs oid = .ok t' → WFlevel t → WFlevel t' := by
  induction segs with
  | nil =>
    intro t t' oid _ _ hins _
    rw [insertPath] at hins
    cases hins
  | cons seg rest ih =>
    intro t t' oid hnames hoid hins hwf
    cases rest with
    | nil =>
      rw [insertPath] at hins
      cases hins
      refine ⟨names_eset_nodup t seg _ hwf.1,
        WFe_eset t seg _ (hnames seg (List.mem_cons_self seg [])) ?_ trivial hwf.2⟩
      rw [WFv]
      exact hoid
    | cons s2 rest2 =>
      rw [insertPath] at hins
      case x_3 => exact fun h => List.noConfusion h
      have hseg : goodName seg := hnames seg (List.mem_cons_self _ _)
      have hrest : ∀ x ∈ s2 :: rest2, goodName x :=
        fun x hx => hnames x (List.mem_cons_of_mem _ hx)
      cases hel : elookup t seg with
      | none =>
        rw [hel] at hins
        simp only [Bind.bind, Except.bind] at hins
        split at hins
        · cases hins
        · rename_i sub' hsub
          cases hins
          have hsub' := ih TEntries.nil sub' oid hrest hoid hsub
            ⟨List.nodup_nil, trivial⟩
          refine ⟨names_eset_nodup t seg _ hwf.1,
            WFe_eset t seg _ hseg ?_ ?_ hwf.2⟩
          · rw [WFv]
            exact hsub'
          · have hne := insertPath_ne_nil (s2 :: rest2) TEntries.nil sub' oid hsub
            cases sub' with
            | nil => exact absurd rfl hne
            | cons a b c => exact trivial
      | some v =>
        rw [hel] at hins
        cases v with
        | blob b =>
          simp only [Bind.bind, Except.bind] at hins
          cases hins
        | dir sub =>
          simp only [Bind.bind, Except.bind] at hins
          split at hins
          · cases hins
          · rename_i sub' hsub
            cases hins
            have hv := (WFv_of_elookup t seg _ hwf.2 hel).1
            rw [WFv] at hv
            have hsub' := ih sub sub' oid hrest hoid hsub hv
            refine ⟨names_eset_nodup t seg _ hwf.1,
              WFe_eset t seg _ hseg ?_ ?_ hwf.2⟩
            · rw [WFv]
              exact hsub'
            · have hne := insertPath_ne_nil (s2 :: rest2) sub sub' oid hsub
              cases sub' with
              | nil => exact absurd rfl hne
              | cons a b c => exact trivial

theorem valDepth_le_of_elookup (e : TEntries) (k : Str) (v : TVal)
    (h : elookup e k = some v) : valDepth v ≤ entsDepth e := by
  induction e using entries_ind with
  | hnil => cases h
  | hcons n v0 rest ih =>
    rw [elookup] at h
    rw [entsDepth]
    by_cases hn : n = k
    · rw [if_pos hn] at h
      cases h
      exact le_max_left _ _
    · rw [if_neg hn] at h
      exact le_trans (ih h) (le_max_right _ _)

theorem entsDepth_eset (e : TEntries) (k : Str) (v : TVal) :
    entsDepth (eset e k v) ≤ max (valDepth v) (entsDepth e) := by
  induction e using entries_ind with
  | hnil =>
    rw [eset, entsDepth]
    exact le_refl _
  | hcons n v0 rest ih =>
    rw [eset]
    by_cases hn : n = k
    · rw [if_pos hn, entsDepth, entsDepth]
      omega
    · rw [if_neg hn, entsDepth, entsDepth]
      omega

/-- The setdefault walk bounds the tree depth by the path length. -/
theorem insertPath_depth (segs : List Str) :
    ∀ (t t' : TEntries) (oid : Str),
      insertPath t segs oid = .ok t' →
      entsDepth t' ≤ max segs.length (entsDepth t) := by
  induction segs with
  | nil =>
    intro t t' oid hins
    rw [insertPath] at hins
    cases hins
  | cons seg rest ih =>
    intro t t' oid hins
    cases rest with
    | nil =>
      rw [insertPath] at hins
      cases hins
      have h1 := entsDepth_eset t seg (TVal.blob oid)
      have h2 : valDepth (TVal.blob oid) = 0 := rfl
      simp only [List.length_cons, List.length_nil]
      omega
    | cons s2 rest2 =>
      rw [insertPath] at hins
      case x_3 => exact fun h => List.noConfusion h
      cases hel : elookup t seg with
      | none =>
        rw [hel] at hins
        simp only [Bind.bind, Except.bind] at hins
        split at hins
        · cases hins
        · rename_i sub' hsub
          cases hins
          have hd := ih TEntries.nil sub' oid hsub
          have h1 := entsDepth_eset t seg (TVal.dir sub')
          have h2 : valDepth (TVal.dir sub') = entsDepth sub' + 1 := rfl
          have h3 : entsDepth TEntries.nil = 0 := rfl
          simp only [List.length_cons] at *
          omega
      | some v =>
        rw [hel] at hins
        cases v with
        | blob b =>
          simp only [Bind.bind, Except.bind] at hins
          cases hins
        | dir sub =>
          simp only [Bind.bind, Except.bind] at hins
          split at hins
          · cases hins
          · rename_i sub' hsub
            cases hins
            have hd := ih sub sub' oid hsub
            have h1 := entsDepth_eset t seg (TVal.dir sub')
            have h2 : valDepth (TVal.dir sub') = entsDepth sub' + 1 := rfl
            have h3 : valDepth (TVal.dir sub) ≤ entsDepth t :=
              valDepth_le_of_elookup t seg _ hel
            have h4 : valDepth (TVal.dir sub) = entsDepth sub + 1 := rfl
            simp only [List.length_cons] at *
            omega

theorem alookup_append_single_ne {β : Type} (l : List (Str × β)) (k k' : Str)
    (v : β) (h : k' ≠ k) : alookup (l ++ [(k, v)]) k' = alookup l k' := by
  by_cases hm : k' ∈ l.map Prod.fst
  · exact alookup_append_left l [(k, v)] k' hm
  · rw [alookup_append_right l _ k' hm, alookup_none_of_not_mem l k' hm,
      alookup, if_neg (fun he => h he.symm)]
    rfl

/-- The largest segment count among the index paths. -/
def maxPathDepth (M : List (Str × Str)) : Nat :=
  M.foldr (fun p acc => max (pySplitOn '/' p.1).length acc) 0

theorem maxPathDepth_cons (p : Str × Str) (M : List (Str × Str)) :
    maxPathDepth (p :: M) = max (pySplitOn '/' p.1).length (maxPathDepth M) := rfl

/-- Folding index entries into the nested dictionary: the tree reads back
exactly the association map, stays well formed, and its depth is bounded by
the longest path — provided keys are distinct and no key is a
directory prefix of another. -/
theorem index_fold_spec (M : List (Str × Str)) :
    ∀ (D : List (Str × Str)) (t : TEntries),
      ((D ++ M).map Prod.fst).Nodup →
      (∀ p ∈ (D ++ M).map Prod.fst, ∀ q ∈ (D ++ M).map Prod.fst, p ≠ q →
        ¬ (pySplitOn '/' p <+: pySplitOn '/' q)) →
      (∀ p ∈ M.map Prod.fst, ∀ seg ∈ pySplitOn '/' p, goodName seg) →
      (∀ v ∈ M.map Prod.snd, goodOid v) →
      (∀ s, segsOk s → lookupSegs t s = alookup D (joinSegs s)) →
      WFlevel t →
      ∃ t', M.foldlM (fun a p => insertPath a (pySplitOn '/' p.1) p.2) t = .ok t'
        ∧ (∀ s, segsOk s → lookupSegs t' s = alookup (D ++ M) (joinSegs s))
        ∧ WFlevel t'
        ∧ entsDepth t' ≤ max (maxPathDepth M) (entsDepth t) := by
  induction M with
  | nil =>
    intro D t hnodup hpf hnames hvals hinv hwf
    refine ⟨t, rfl, ?_, hwf, le_max_right _ _⟩
    intro s hs
    rw [List.append_nil]
    exact hinv s hs
  | cons kp M' ih =>
    intro D t hnodup hpf hnames hvals hinv hwf
    obtain ⟨k, o⟩ := kp
    have hksegs := segsOk_splitOn k
    have hkmem : k ∈ (D ++ (k, o) :: M').map Prod.fst := by
      rw [List.map_append]
      exact List.mem_append_right _
        (by rw [List.map_cons]; exact List.mem_cons_self _ _)
    have hkfresh : k ∉ D.map Prod.fst := by
      have hnodup' := hnodup
      rw [List.map_append] at hnodup'
      rcases List.nodup_append.1 hnodup' with ⟨_, _, hdisj⟩
      intro hmem
      exact hdisj hmem (by rw [List.map_cons]; exact List.mem_cons_self _ _)
    have hnone : ∀ q, q <+: pySplitOn '/' k → q ≠ pySplitOn '/' k →
        lookupSegs t q = none := by
      intro q hqpre hqne
      cases q with
      | nil => rfl
      | cons a r =>
        have hqok : segsOk (a :: r) := ⟨List.cons_ne_nil a r,
          fun seg hs => hksegs.2 seg (hqpre.subset hs)⟩
        rw [hinv (a :: r) hqok]
        apply alookup_none_of_not_mem
        intro hmem
        have hp'mem : joinSegs (a :: r) ∈ (D ++ (k, o) :: M').map Prod.fst := by
          rw [List.map_append]
          exact List.mem_append_left _ hmem
        have hsplit : pySplitOn '/' (joinSegs (a :: r)) = a :: r :=
          splitOn_joinSegs _ hqok
        have hnk : joinSegs (a :: r) ≠ k := by
          intro he
          rw [he] at hsplit
          exact hqne hsplit.symm
        exact hpf (joinSegs (a :: r)) hp'mem k hkmem hnk
          (by rw [hsplit]; exact hqpre)
    obtain ⟨t1, hins⟩ := insertPath_ok (pySplitOn '/' k) t o
      (pySplitOn_ne_nil '/' k) hnone
    obtain ⟨ha, hb, hc⟩ := insertPath_spec (pySplitOn '/' k) t t1 o hins
    have hwf1 : WFlevel t1 := insertPath_WF _ t t1 o
      (hnames k (by rw [List.map_cons]; exact List.mem_cons_self _ _))
      (hvals o (by rw [List.map_cons]; exact List.mem_cons_self _ _)) hins hwf
    have hdep1 := insertPath_depth (pySplitOn '/' k) t t1 o hins
    have hinv1 : ∀ s, segsOk s →
        lookupSegs t1 s = alookup (D ++ [(k, o)]) (joinSegs s) := by
      intro s hs
      by_cases hpre : pySplitOn '/' k <+: s
      · by_cases heq : s = pySplitOn '/' k
        · subst heq
          rw [ha, joinSegs_splitOn k, alookup_append_right D _ k hkfresh,
            alookup, if_pos rfl]
        · rw [hc s hpre heq]
          have hsplit : pySplitOn '/' (joinSegs s) = s := splitOn_joinSegs s hs
          have hnk : joinSegs s ≠ k := by
            intro he
            rw [he] at hsplit
            exact heq hsplit.symm
          rw [alookup_append_single_ne D k (joinSegs s) o hnk]
          refine (alookup_none_of_not_mem D _ ?_).symm
          intro hmem
          have hp'mem : joinSegs s ∈ (D ++ (k, o) :: M').map Prod.fst := by
            rw [List.map_append]
            exact List.mem_append_left _ hmem
          exact hpf k hkmem (joinSegs s) hp'mem (fun he => hnk he.symm)
            (by rw [hsplit]; exact hpre)
      · rw [hb s hpre, hinv s hs]
        have hnk : joinSegs s ≠ k := by
          intro he
          apply hpre
          have hseq : s = pySplitOn '/' k := by
            rw [← splitOn_joinSegs s hs, he]
          rw [hseq]
        exact (alookup_append_single_ne D k (joinSegs s) o hnk).symm
    have hDM : (D ++ [(k, o)]) ++ M' = D ++ (k, o) :: M' := by
      rw [List.append_assoc]
      rfl
    obtain ⟨t', hfold, hinv', hwf', hdep'⟩ := ih (D ++ [(k, o)]) t1
      (by rw [hDM]; exact hnodup)
      (by rw [hDM]; exact hpf)
      (fun p hp => hnames p (by rw [List.map_cons]; exact List.mem_cons_of_mem _ hp))
      (fun v hv => hvals v (by rw [List.map_cons]; exact List.mem_cons_of_mem _ hv))
      hinv1 hwf1
    refine ⟨t', ?_, ?_, hwf', ?_⟩
    · rw [List.foldlM_cons]
      simp only [hins, Bind.bind, Except.bind]
      exact hfold
    · intro s hs
      rw [hinv' s hs, hDM]
    · rw [maxPathDepth_cons]
      dsimp only
      omega

/-! ## Entry membership and flat-map support -/

/-- Membership of a (name, value) pair in one directory level. -/
def emem (n : Str) (v : TVal) : TEntries → Prop
  | .nil => False
  | .cons n' v' rest => (n = n' ∧ v = v') ∨ emem n v rest

theorem emem_names (n : Str) (v : TVal) :
    ∀ e, emem n v e → n ∈ names e := by
  refine entries_ind (fun e => emem n v e → n ∈ names e) ?_ ?_
  · intro h
    cases h
  · intro n' v' rest ih h
    rcases h with ⟨h1, _⟩ | h
    · rw [names, h1]
      exact List.mem_cons_self _ _
    · rw [names]
      exact List.mem_cons_of_mem _ (ih h)

theorem elookup_of_emem (n : Str) (v : TVal) :
    ∀ e, (names e).Nodup → emem n v e → elookup e n = some v := by
  refine entries_ind (fun e => (names e).Nodup → emem n v e → elookup e n = some v) ?_ ?_
  · intro _ h
    cases h
  · intro n' v' rest ih hnd h
    rw [names] at hnd
    rcases List.nodup_cons.1 hnd with ⟨hn', hrest⟩
    rcases h with ⟨h1, h2⟩ | h
    · rw [elookup, if_pos h1.symm, h2]
    · have hne : ¬ n' = n := fun he => hn' (he ▸ emem_names n v rest h)
      rw [elookup, if_neg hne]
      exact ih hrest h

theorem entriesSpec_names (hash : Str → Str) :
    ∀ e, (entriesSpec hash e).map (fun t => t.1) = names e := by
  refine entries_ind (fun e => (entriesSpec hash e).map (fun t => t.1) = names e) ?_ ?_
  · rfl
  · intro n v rest ih
    rw [entriesSpec, List.map_cons, ih]
    rfl

theorem entriesSpec_mem (hash : Str → Str) :
    ∀ e, ∀ t ∈ entriesSpec hash e,
      ∃ v, emem t.1 v e ∧ t.2.1 = valOid hash v ∧ t.2.2 = valType v := by
  refine entries_ind (fun e => ∀ t ∈ entriesSpec hash e,
      ∃ v, emem t.1 v e ∧ t.2.1 = valOid hash v ∧ t.2.2 = valType v) ?_ ?_
  · intro t ht
    cases ht
  · intro n v rest ih t ht
    rw [entriesSpec] at ht
    rcases List.mem_cons.1 ht with h | h
    · subst h
      exact ⟨v, Or.inl ⟨rfl, rfl⟩, rfl, rfl⟩
    · obtain ⟨v', hm, h1, h2⟩ := ih t h
      exact ⟨v', Or.inr hm, h1, h2⟩

theorem emem_good (n : Str) (v : TVal) :
    ∀ e, WFe e → emem n v e → goodName n ∧ WFv v ∧ dirNonempty v := by
  refine entries_ind (fun e => WFe e → emem n v e →
      goodName n ∧ WFv v ∧ dirNonempty v) ?_ ?_
  · intro _ h
    cases h
  · intro n' v' rest ih hwf h
    rw [WFe] at hwf
    obtain ⟨hn', hne', hv', hrest⟩ := hwf
    rcases h with ⟨h1, h2⟩ | h
    · subst h1
      subst h2
      exact ⟨hn', hv', hne'⟩
    · exact ih hrest h

theorem valType_blob (v : TVal) (h : valType v = "blob".toList) :
    ∃ b, v = TVal.blob b := by
  cases v with
  | blob b => exact ⟨b, rfl⟩
  | dir e =>
    rw [valType] at h
    exact absurd h (by decide)

theorem valType_tree (v : TVal) (h : valType v = "tree".toList) :
    ∃ sub, v = TVal.dir sub := by
  cases v with
  | blob b =>
    rw [valType] at h
    exact absurd h (by decide)
  | dir e => exact ⟨e, rfl⟩

theorem joinSegs_head_eq (n1 n2 : Str) (t1 t2 : List Str)
    (hn1 : ('/' : Char) ∉ n1) (hn2 : ('/' : Char) ∉ n2)
    (h : joinSegs (n1 :: t1) = joinSegs (n2 :: t2)) : n1 = n2 := by
  obtain ⟨r1, he1, hs1⟩ := joinSegs_tail_shape n1 t1
  obtain ⟨r2, he2, hs2⟩ := joinSegs_tail_shape n2 t2
  rw [he1, he2] at h
  exact (name_of_key n1 n2 r1 r2 hn1 hn2 hs1 hs2 h).1

theorem key_decomp (base name : Str) (tail : List Str) (ht : tail ≠ []) :
    base ++ joinSegs (name :: tail) = (base ++ name ++ ['/']) ++ joinSegs tail := by
  rw [joinSegs_cons name tail ht]
  rw [List.append_assoc, List.append_assoc, List.singleton_append]

theorem alookup_append_not_mem_right {β : Type} (l1 l2 : List (Str × β))
    (k : Str) (h : k ∉ l2.map Prod.fst) :
    alookup (l1 ++ l2) k = alookup l1 k := by
  by_cases hm : k ∈ l1.map Prod.fst
  · exact alookup_append_left l1 l2 k hm
  · rw [alookup_append_right l1 l2 k hm, alookup_none_of_not_mem l2 k h,
      alookup_none_of_not_mem l1 k hm]

/-- One step of the `get_tree` entry fold. -/
def gtStep (st : Store) (fuel : Nat) (base : Str)
    (acc : List (Str × Str)) (e : Str × Str × Str) :
    Except String (List (Str × Str)) := do
  let (ty, o, name) := e
  if '/' ∈ name then .error "AssertionError: sep"
  else if name = "..".toList ∨ name = ".".toList then .error "AssertionError: dots"
  else
    let path := base ++ name
    if ty = "blob".toList then .ok (aset acc path o)
    else if ty = "tree".toList then do
      let sub ← get_tree st fuel o (path ++ ['/'])
      .ok (aupdate acc sub)
    else .error "AssertionError: kind"

theorem get_tree_succ (st : Store) (fuel : Nat) (oid base : Str) :
    get_tree st (fuel + 1) oid base = (do
      let entries ← iter_tree_entries st (some oid)
      entries.foldlM (gtStep st fuel base) []) := rfl

theorem gtStep_blob (st : Store) (fuel : Nat) (base : Str)
    (acc : List (Str × Str)) (o name : Str) (hgood : goodName name) :
    gtStep st fuel base acc ("blob".toList, o, name) =
      .ok (aset acc (base ++ name) o) := by
  rw [gtStep]
  rw [if_neg hgood.1]
  rw [if_neg (by rintro (h | h) <;> [exact hgood.2.2.1 h; exact hgood.2.1 h])]
  rw [if_pos rfl]

theorem gtStep_tree (st : Store) (fuel : Nat) (base : Str)
    (acc : List (Str × Str)) (o name : Str) (hgood : goodName name) :
    gtStep st fuel base acc ("tree".toList, o, name) = (do
      let sub ← get_tree st fuel o ((base ++ name) ++ ['/'])
      .ok (aupdate acc sub)) := by
  rw [gtStep]
  rw [if_neg hgood.1]
  rw [if_neg (by rintro (h | h) <;> [exact hgood.2.2.1 h; exact hgood.2.1 h])]
  rw [if_neg (by decide), if_pos rfl]

/-- The round-trip contract of one `get_tree` call on a stored directory:
it succeeds and the flat result reads back the nested dictionary. -/
def GTspec (st : Store) (fuel : Nat) (oid base : Str) (sub : TEntries) : Prop :=
  ∃ R, get_tree st fuel oid base = .ok R
    ∧ (∀ key ∈ R.map Prod.fst, ∃ s, segsOk s ∧ key = base ++ joinSegs s)
    ∧ (R.map Prod.fst).Nodup
    ∧ (∀ s, segsOk s → alookup R (base ++ joinSegs s) = lookupSegs sub s)

theorem segsOk_single (n : Str) (h : ('/' : Char) ∉ n) : segsOk [n] :=
  ⟨List.cons_ne_nil n [], fun seg hseg => by
    rcases List.mem_singleton.1 hseg with h'
    rw [h']
    exact h⟩

theorem segsOk_cons_iff (n : Str) (t : List Str) :
    segsOk (n :: t) ↔ ('/' : Char) ∉ n ∧ (t = [] ∨ segsOk t) := by
  constructor
  · intro ⟨_, hall⟩
    refine ⟨hall n (List.mem_cons_self n t), ?_⟩
    cases t with
    | nil => exact Or.inl rfl
    | cons a r =>
      exact Or.inr ⟨List.cons_ne_nil a r,
        fun seg hs => hall seg (List.mem_cons_of_mem n hs)⟩
  · intro ⟨hn, ht⟩
    refine ⟨List.cons_ne_nil n t, ?_⟩
    intro seg hs
    rcases List.mem_cons.1 hs with h | h
    · rw [h]
      exact hn
    · rcases ht with ht | ht
      · rw [ht] at h
        cases h
      · exact ht.2 seg h

theorem joinSegs_single (s : Str) : joinSegs [s] = s := rfl

/-- Invariant of the `get_tree` entry fold: processing the entry triples of a
well-formed level extends the accumulated flat map consistently with the
nested dictionary. -/
theorem gt_fold (hash : Str → Str) (st : Store) (f : Nat) (e : TEntries)
    (base : Str) (hwf : WFlevel e)
    (hrec : ∀ n sub, emem n (TVal.dir sub) e →
      GTspec st f (hash (dirObj hash sub)) ((base ++ n) ++ ['/']) sub) :
    ∀ (L : List (Str × Str × Str)) (P : List Str) (acc : List (Str × Str)),
      (∀ x ∈ L, ∃ v, emem x.2.2 v e ∧ x.2.1 = valOid hash v ∧ x.1 = valType v) →
      (∀ x ∈ L, x.2.2 ∉ P) →
      (L.map (fun x => x.2.2)).Nodup →
      (∀ key ∈ acc.map Prod.fst,
        ∃ s, segsOk s ∧ key = base ++ joinSegs s ∧ s.headI ∈ P) →
      (acc.map Prod.fst).Nodup →
      (∀ s, segsOk s → s.headI ∈ P →
        alookup acc (base ++ joinSegs s) = lookupSegs e s) →
      ∃ R, L.foldlM (gtStep st f base) acc = .ok R
        ∧ (∀ key ∈ R.map Prod.fst, ∃ s, segsOk s ∧ key = base ++ joinSegs s
            ∧ (s.headI ∈ P ∨ s.headI ∈ L.map (fun x => x.2.2)))
        ∧ (R.map Prod.fst).Nodup
        ∧ (∀ s, segsOk s → (s.headI ∈ P ∨ s.headI ∈ L.map (fun x => x.2.2)) →
            alookup R (base ++ joinSegs s) = lookupSegs e s) := by
  intro L
  induction L with
  | nil =>
    intro P acc _ _ _ hshape hnd hlook
    refine ⟨acc, rfl, ?_, hnd, ?_⟩
    · intro key hk
      obtain ⟨s, hs, he, hp⟩ := hshape key hk
      exact ⟨s, hs, he, Or.inl hp⟩
    · intro s hs hp
      rcases hp with hp | hp
      · exact hlook s hs hp
      · simp at hp
  | cons x L' ih =>
    intro P acc hL hdisj hndL hshape hnd hlook
    obtain ⟨ty, o, name⟩ := x
    obtain ⟨v, hmem, ho, hty⟩ := hL (ty, o, name) (List.mem_cons_self _ _)
    dsimp only at hmem ho hty
    have hgood : goodName name := (emem_good name v e hwf.2 hmem).1
    have hnameP : name ∉ P := hdisj (ty, o, name) (List.mem_cons_self _ _)
    rw [List.map_cons] at hndL
    rcases List.nodup_cons.1 hndL with ⟨hnameL, hndL'⟩
    have hL' : ∀ x ∈ L', ∃ v, emem x.2.2 v e ∧ x.2.1 = valOid hash v
        ∧ x.1 = valType v := fun x hx => hL x (List.mem_cons_of_mem _ hx)
    have hdisj' : ∀ x ∈ L', x.2.2 ∉ P ++ [name] := by
      intro x hx hmemx
      rcases List.mem_append.1 hmemx with h | h
      · exact hdisj x (List.mem_cons_of_mem _ hx) h
      · have hmm : x.2.2 ∈ L'.map (fun y => y.2.2) := List.mem_map_of_mem _ hx
        rw [List.mem_singleton.1 h] at hmm
        exact hnameL hmm
    have hfresh : ∀ tail, base ++ joinSegs (name :: tail) ∉ acc.map Prod.fst := by
      intro tail hmem'
      obtain ⟨s, hs, hkey, hp⟩ := hshape _ hmem'
      cases s with
      | nil => exact absurd rfl hs.1
      | cons h t =>
        have hj : joinSegs (name :: tail) = joinSegs (h :: t) :=
          List.append_cancel_left hkey
        have hh : name = h := joinSegs_head_eq name h tail t hgood.1
          (hs.2 h (List.mem_cons_self h t)) hj
        simp only [List.headI] at hp
        exact hnameP (hh ▸ hp)
    cases v with
    | blob b =>
      rw [valOid] at ho
      rw [valType] at hty
      rw [List.foldlM_cons, hty, ho, gtStep_blob st f base acc b name hgood]
      simp only [Bind.bind, Except.bind]
      have hk1 : base ++ name ∉ acc.map Prod.fst := by
        have h0 := hfresh []
        rw [joinSegs_single] at h0
        exact h0
      rw [aset_fresh_append acc _ b hk1]
      have hshape1 : ∀ key ∈ (acc ++ [(base ++ name, b)]).map Prod.fst,
          ∃ s, segsOk s ∧ key = base ++ joinSegs s ∧ s.headI ∈ P ++ [name] := by
        intro key hk
        rw [List.map_append] at hk
        rcases List.mem_append.1 hk with h | h
        · obtain ⟨s, hs, he, hp⟩ := hshape key h
          exact ⟨s, hs, he, List.mem_append_left _ hp⟩
        · simp only [List.map_cons, List.map_nil, List.mem_singleton] at h
          subst h
          refine ⟨[name], segsOk_single name hgood.1, by rw [joinSegs_single], ?_⟩
          simp only [List.headI]
          exact List.mem_append_right _ (List.mem_singleton.2 rfl)
      have hnd1 : ((acc ++ [(base ++ name, b)]).map Prod.fst).Nodup := by
        rw [List.map_append]
        refine List.nodup_append.2 ⟨hnd, by simp, ?_⟩
        intro a ha hb
        simp only [List.map_cons, List.map_nil, List.mem_singleton] at hb
        exact hk1 (hb ▸ ha)
      have hlook1 : ∀ s, segsOk s → s.headI ∈ P ++ [name] →
          alookup (acc ++ [(base ++ name, b)]) (base ++ joinSegs s) =
            lookupSegs e s := by
        intro s hs hp
        cases s with
        | nil => exact absurd rfl hs.1
        | cons h t =>
          simp only [List.headI] at hp
          rcases List.mem_append.1 hp with hp | hp
          · have hne : base ++ joinSegs (h :: t) ≠ base ++ name := by
              intro he
              have hj : joinSegs (h :: t) = joinSegs [name] := by
                rw [joinSegs_single]
                exact List.append_cancel_left he
              have hh := joinSegs_head_eq h name t []
                (hs.2 h (List.mem_cons_self h t)) hgood.1 hj
              exact hnameP (hh ▸ hp)
            rw [alookup_append_single_ne acc (base ++ name) _ b hne]
            exact hlook (h :: t) hs (by simp only [List.headI]; exact hp)
          · have hh : h = name := List.mem_singleton.1 hp
            subst hh
            have hel : elookup e h = some (TVal.blob b) :=
              elookup_of_emem h _ e hwf.1 hmem
            cases t with
            | nil =>
              rw [joinSegs_single]
              rw [alookup_append_right acc _ _ hk1]
              rw [alookup, if_pos rfl]
              exact (lookupSegs_blob_single e h b hel).symm
            | cons a r =>
              rw [lookupSegs_blob_cons2 e h b a r hel]
              have hne : base ++ joinSegs (h :: a :: r) ≠ base ++ h := by
                intro he
                rw [key_decomp base h (a :: r) (List.cons_ne_nil a r)] at he
                have hlen := congrArg List.length he
                simp only [List.length_append, List.length_cons] at hlen
                omega
              rw [alookup_append_single_ne acc (base ++ h) _ b hne]
              exact alookup_none_of_not_mem acc _ (hfresh (a :: r))
      obtain ⟨R, hfold, hshape', hnd', hlook'⟩ := ih (P ++ [name])
        (acc ++ [(base ++ name, b)]) hL' hdisj' hndL' hshape1 hnd1 hlook1
      refine ⟨R, hfold, ?_, hnd', ?_⟩
      · intro key hk
        obtain ⟨s, hs, he, hp⟩ := hshape' key hk
        refine ⟨s, hs, he, ?_⟩
        simp only [List.map_cons, List.mem_cons]
        rcases hp with hp | hp
        · rcases List.mem_append.1 hp with hp | hp
          · exact Or.inl hp
          · exact Or.inr (Or.inl (List.mem_singleton.1 hp))
        · exact Or.inr (Or.inr hp)
      · intro s hs hp
        refine hlook' s hs ?_
        simp only [List.map_cons, List.mem_cons] at hp
        rcases hp with hp | hp | hp
        · exact Or.inl (List.mem_append_left _ hp)
        · exact Or.inl (List.mem_append_right _ (List.mem_singleton.2 hp))
        · exact Or.inr hp
    | dir sub =>
      rw [valOid_dir] at ho
      rw [valType] at hty
      obtain ⟨Rsub, hgt, hshapeS, hndS, hlookS⟩ := hrec name sub hmem
      rw [List.foldlM_cons, hty, ho, gtStep_tree st f base acc _ name hgood]
      simp only [Bind.bind, Except.bind, hgt]
      have hdisjK : ∀ key ∈ Rsub.map Prod.fst, key ∉ acc.map Prod.fst := by
        intro key hk hmemA
        obtain ⟨s', hs', hkey⟩ := hshapeS key hk
        cases s' with
        | nil => exact absurd rfl hs'.1
        | cons a r =>
          rw [hkey, ← key_decomp base name (a :: r) (List.cons_ne_nil a r)]
            at hmemA
          exact hfresh (a :: r) hmemA
      have haup : aupdate acc Rsub = acc ++ Rsub :=
        aupdate_fresh_append acc Rsub (fun k hk => hdisjK k hk) hndS
      rw [haup]
      have hnotS : ∀ h t, h ∈ P → segsOk (h :: t) →
          base ++ joinSegs (h :: t) ∉ Rsub.map Prod.fst := by
        intro h t hp hsOk hk
        obtain ⟨s', hs', hkey⟩ := hshapeS _ hk
        cases s' with
        | nil => exact absurd rfl hs'.1
        | cons a r =>
          rw [← key_decomp base name (a :: r) (List.cons_ne_nil a r)] at hkey
          have hj : joinSegs (h :: t) = joinSegs (name :: a :: r) :=
            List.append_cancel_left hkey
          have hh := joinSegs_head_eq h name t (a :: r)
            (hsOk.2 h (List.mem_cons_self h t)) hgood.1 hj
          exact hnameP (hh ▸ hp)
      have hshape1 : ∀ key ∈ (acc ++ Rsub).map Prod.fst,
          ∃ s, segsOk s ∧ key = base ++ joinSegs s ∧ s.headI ∈ P ++ [name] := by
        intro key hk
        rw [List.map_append] at hk
        rcases List.mem_append.1 hk with h | h
        · obtain ⟨s, hs, he, hp⟩ := hshape key h
          exact ⟨s, hs, he, List.mem_append_left _ hp⟩
        · obtain ⟨s', hs', hkey⟩ := hshapeS key h
          cases s' with
          | nil => exact absurd rfl hs'.1
          | cons a r =>
            refine ⟨name :: a :: r,
              (segsOk_cons_iff name (a :: r)).2 ⟨hgood.1, Or.inr hs'⟩, ?_, ?_⟩
            · rw [key_decomp base name (a :: r) (List.cons_ne_nil a r)]
              exact hkey
            · simp only [List.headI]
              exact List.mem_append_right _ (List.mem_singleton.2 rfl)
      have hnd1 : ((acc ++ Rsub).map Prod.fst).Nodup := by
        rw [List.map_append]
        exact List.nodup_append.2 ⟨hnd, hndS, fun a ha hb => hdisjK a hb ha⟩
      have hlook1 : ∀ s, segsOk s → s.headI ∈ P ++ [name] →
          alookup (acc ++ Rsub) (base ++ joinSegs s) = lookupSegs e s := by
        intro s hs hp
        cases s with
        | nil => exact absurd rfl hs.1
        | cons h t =>
          simp only [List.headI] at hp
          rcases List.mem_append.1 hp with hp | hp
          · rw [alookup_append_not_mem_right acc Rsub _ (hnotS h t hp hs)]
            exact hlook (h :: t) hs (by simp only [List.headI]; exact hp)
          · have hh : h = name := List.mem_singleton.1 hp
            subst hh
            have hel : elookup e h = some (TVal.dir sub) :=
              elookup_of_emem h _ e hwf.1 hmem
            cases t with
            | nil =>
              rw [lookupSegs_dir_single e h sub hel, joinSegs_single]
              have hnRsub : base ++ h ∉ Rsub.map Prod.fst := by
                intro hk
                obtain ⟨s', hs', hkey⟩ := hshapeS _ hk
                cases s' with
                | nil => exact absurd rfl hs'.1
                | cons a r =>
                  have hlen := congrArg List.length hkey
                  simp only [List.length_append, List.length_cons] at hlen
                  omega
              rw [alookup_append_not_mem_right acc Rsub _ hnRsub]
              refine alookup_none_of_not_mem acc _ ?_
              have h0 := hfresh []
              rw [joinSegs_single] at h0
              exact h0
            | cons a r =>
              rw [lookupSegs_dir_head e h sub (a :: r) hel (List.cons_ne_nil a r)]
              rw [key_decomp base h (a :: r) (List.cons_ne_nil a r)]
              have hnacc : ((base ++ h) ++ ['/']) ++ joinSegs (a :: r) ∉
                  acc.map Prod.fst := by
                rw [← key_decomp base h (a :: r) (List.cons_ne_nil a r)]
                exact hfresh (a :: r)
              rw [alookup_append_right acc Rsub _ hnacc]
              exact hlookS (a :: r) ⟨List.cons_ne_nil a r,
                fun seg hm => hs.2 seg (List.mem_cons_of_mem h hm)⟩
      obtain ⟨R, hfold, hshape', hnd', hlook'⟩ := ih (P ++ [name])
        (acc ++ Rsub) hL' hdisj' hndL' hshape1 hnd1 hlook1
      refine ⟨R, hfold, ?_, hnd', ?_⟩
      · intro key hk
        obtain ⟨s, hs, he, hp⟩ := hshape' key hk
        refine ⟨s, hs, he, ?_⟩
        simp only [List.map_cons, List.mem_cons]
        rcases hp with hp | hp
        · rcases List.mem_append.1 hp with hp | hp
          · exact Or.inl hp
          · exact Or.inr (Or.inl (List.mem_singleton.1 hp))
        · exact Or.inr (Or.inr hp)
      · intro s hs hp
        refine hlook' s hs ?_
        simp only [List.map_cons, List.mem_cons] at hp
        rcases hp with hp | hp | hp
        · exact Or.inl (List.mem_append_left _ hp)
        · exact Or.inl (List.mem_append_right _ (List.mem_singleton.2 hp))
        · exact Or.inr hp

theorem valObjs_subset_entObjs (hash : Str → Str) (n : Str) (v : TVal) :
    ∀ e, emem n v e → ∀ o ∈ valObjs hash v, o ∈ entObjs hash e := by
  refine entries_ind (fun e => emem n v e → ∀ o ∈ valObjs hash v,
      o ∈ entObjs hash e) ?_ ?_
  · intro h
    cases h
  · intro n' v' rest ih h o ho
    rw [entObjs]
    rcases h with ⟨_, h2⟩ | h
    · exact List.mem_append_left _ (h2 ▸ ho)
    · exact List.mem_append_right _ (ih h o ho)

theorem valType_good (v : TVal) :
    (' ' ∉ valType v) ∧ ∀ c ∈ valType v, isLineBreak c = false := by
  cases v with
  | blob b =>
    rw [valType]
    decide
  | dir e =>
    rw [valType]
    decide

/-- A well-formed level whose written objects are all present in the store
under valid nonempty ids expands through `get_tree` back to its flat map. -/
theorem get_tree_spec (hash : Str → Str) (st : Store) :
    ∀ (fuel : Nat) (e : TEntries) (base : Str),
      WFlevel e →
      (∀ o ∈ entObjs hash e ++ [dirObj hash e], alookup st (hash o) = some o) →
      (∀ o ∈ entObjs hash e ++ [dirObj hash e], hash o ≠ [] ∧ goodOid (hash o)) →
      entsDepth e < fuel →
      GTspec st fuel (hash (dirObj hash e)) base e := by
  intro fuel
  induction fuel with
  | zero =>
    intro e base _ _ _ hd
    exact absurd hd (Nat.not_lt_zero _)
  | succ f ihf =>
    intro e base hwf hst hgoodh hd
    rw [GTspec]
    have hdmem : dirObj hash e ∈ entObjs hash e ++ [dirObj hash e] :=
      List.mem_append_right _ (List.mem_singleton.2 rfl)
    have hne : hash (dirObj hash e) ≠ [] := (hgoodh _ hdmem).1
    have hlook : alookup st (hash (dirObj hash e)) =
        some ("tree".toList ++ nul :: serializeEntries (entriesSpec hash e)) :=
      hst _ hdmem
    have hgoodT : ∀ t ∈ pySorted entryLEb (entriesSpec hash e),
        (' ' ∉ t.2.2) ∧ (' ' ∉ t.2.1) ∧
          ∀ c ∈ entryCore t, isLineBreak c = false := by
      intro t ht
      have htes : t ∈ entriesSpec hash e :=
        (pySorted_perm entryLEb _).mem_iff.1 ht
      obtain ⟨v, hmem, h21, h22⟩ := entriesSpec_mem hash e t htes
      obtain ⟨hgn, hv, _⟩ := emem_good t.1 v e hwf.2 hmem
      have hoidGood : goodOid t.2.1 := by
        rw [h21]
        cases v with
        | blob b =>
          rw [valOid]
          rw [WFv] at hv
          exact hv
        | dir sub =>
          rw [valOid_dir]
          refine (hgoodh (dirObj hash sub) (List.mem_append_left _ ?_)).2
          refine valObjs_subset_entObjs hash t.1 _ e hmem (dirObj hash sub) ?_
          rw [valObjs]
          exact List.mem_append_right _ (List.mem_singleton.2 rfl)
      have htyGood := valType_good v
      refine ⟨by rw [h22]; exact htyGood.1, hoidGood.1, ?_⟩
      intro c hc
      rw [entryCore] at hc
      rcases List.mem_append.1 hc with hc | hc
      · rcases List.mem_append.1 hc with hc | hc
        · rw [h22] at hc
          exact htyGood.2 c hc
        · rcases List.mem_cons.1 hc with hc | hc
          · rw [hc]
            decide
          · exact hoidGood.2 c hc
      · rcases List.mem_cons.1 hc with hc | hc
        · rw [hc]
          decide
        · exact hgn.2.2.2 c hc
    have hiter := iter_tree_entries_spec st (hash (dirObj hash e))
      (entriesSpec hash e) hne hlook hgoodT
    have hrec : ∀ n sub, emem n (TVal.dir sub) e →
        GTspec st f (hash (dirObj hash sub)) ((base ++ n) ++ ['/']) sub := by
      intro n sub hmem
      obtain ⟨hgn, hv, _⟩ := emem_good n _ e hwf.2 hmem
      rw [WFv] at hv
      have hsubset : ∀ o ∈ entObjs hash sub ++ [dirObj hash sub],
          o ∈ entObjs hash e ++ [dirObj hash e] := by
        intro o hoo
        refine List.mem_append_left _ ?_
        refine valObjs_subset_entObjs hash n _ e hmem o ?_
        rw [valObjs]
        exact hoo
      have hdsub : entsDepth sub < f := by
        have h1 : valDepth (TVal.dir sub) ≤ entsDepth e :=
          valDepth_le_of_elookup e n _ (elookup_of_emem n _ e hwf.1 hmem)
        have h2 : valDepth (TVal.dir sub) = entsDepth sub + 1 := rfl
        omega
      exact ihf sub ((base ++ n) ++ ['/']) hv (fun o ho => hst o (hsubset o ho))
        (fun o ho => hgoodh o (hsubset o ho)) hdsub
    have hLprop : ∀ x ∈ (pySorted entryLEb (entriesSpec hash e)).map
        (fun t => (t.2.2, t.2.1, t.1)),
        ∃ v, emem x.2.2 v e ∧ x.2.1 = valOid hash v ∧ x.1 = valType v := by
      intro x hx
      rcases List.mem_map.1 hx with ⟨t, ht, hteq⟩
      obtain ⟨v, hmem, h1, h2⟩ := entriesSpec_mem hash e t
        ((pySorted_perm entryLEb _).mem_iff.1 ht)
      subst hteq
      exact ⟨v, hmem, h1, h2⟩
    have hLperm : (((pySorted entryLEb (entriesSpec hash e)).map
        (fun t => (t.2.2, t.2.1, t.1))).map (fun x => x.2.2)).Perm (names e) := by
      rw [List.map_map]
      have hp := (pySorted_perm entryLEb (entriesSpec hash e)).map (fun t => t.1)
      rw [entriesSpec_names hash e] at hp
      exact hp
    have hndL := hLperm.nodup_iff.2 hwf.1
    obtain ⟨R, hfold, hshapeR, hndR, hlookR⟩ := gt_fold hash st f e base hwf hrec
      ((pySorted entryLEb (entriesSpec hash e)).map (fun t => (t.2.2, t.2.1, t.1)))
      [] [] hLprop (fun x _ h => List.not_mem_nil _ h) hndL
      (fun key hk => absurd hk (List.not_mem_nil _)) List.nodup_nil
      (fun s _ hp => absurd hp (List.not_mem_nil _))
    refine ⟨R, ?_, ?_, hndR, ?_⟩
    · rw [get_tree_succ]
      simp only [hiter, Bind.bind, Except.bind]
      exact hfold
    · intro key hk
      obtain ⟨s, hs, he', _⟩ := hshapeR key hk
      exact ⟨s, hs, he'⟩
    · intro s hs
      by_cases hmm : s.headI ∈ names e
      · exact hlookR s hs (Or.inr (hLperm.mem_iff.2 hmm))
      · cases s with
        | nil => exact absurd rfl hs.1
        | cons h t =>
          simp only [List.headI] at hmm
          rw [lookupSegs_none_head e h t (elookup_none_of_not_mem e h hmm)]
          refine alookup_none_of_not_mem R _ ?_
          intro hkmem
          obtain ⟨s2, hs2, hkey2, hp2⟩ := hshapeR _ hkmem
          have hj : joinSegs (h :: t) = joinSegs s2 :=
            List.append_cancel_left hkey2
          have hseq : (h :: t) = s2 := joinSegs_inj _ _ hs hs2 hj
          rcases hp2 with hp2 | hp2
          · exact absurd hp2 (List.not_mem_nil _)
          · rw [← hseq] at hp2
            simp only [List.headI] at hp2
            exact hmm (hLperm.mem_iff.1 hp2)

theorem blob_of_lookupSegs_single (e : TEntries) (n b : Str)
    (h : lookupSegs e [n] = some b) : elookup e n = some (.blob b) := by
  cases helk : elookup e n with
  | none =>
    rw [lookupSegs_none_head e n [] helk] at h
    cases h
  | some w =>
    cases w with
    | blob b' =>
      rw [lookupSegs_blob_single e n b' helk] at h
      injection h with h'
      rw [← h']
    | dir sub =>
      rw [lookupSegs_dir_single e n sub helk] at h
      cases h

theorem emem_of_elookup (n : Str) (v : TVal) :
    ∀ e, elookup e n = some v → emem n v e := by
  refine entries_ind (fun e => elookup e n = some v → emem n v e) ?_ ?_
  · intro h
    cases h
  · intro n' v' rest ih h
    rw [elookup] at h
    by_cases hn : n' = n
    · rw [if_pos hn] at h
      cases h
      exact Or.inl ⟨hn.symm, rfl⟩
    · rw [if_neg hn] at h
      exact Or.inr (ih h)

theorem entriesSpec_of_emem (hash : Str → Str) (n : Str) (v : TVal) :
    ∀ e, emem n v e → (n, valOid hash v, valType v) ∈ entriesSpec hash e := by
  refine entries_ind (fun e => emem n v e →
      (n, valOid hash v, valType v) ∈ entriesSpec hash e) ?_ ?_
  · intro h
    cases h
  · intro n' v' rest ih h
    rw [entriesSpec]
    rcases h with ⟨h1, h2⟩ | h
    · subst h1
      subst h2
      exact List.mem_cons_self _ _
    · exact List.mem_cons_of_mem _ (ih h)

theorem alookup_some_mem {β : Type} (l : List (Str × β)) (k : Str) (v : β)
    (h : alookup l k = some v) : (k, v) ∈ l := by
  induction l with
  | nil => cases h
  | cons p rest ih =>
    rw [alookup] at h
    by_cases hp : p.1 = k
    · rw [if_pos hp] at h
      cases h
      have hpe : (k, p.2) = p := by
        rw [← hp]
      rw [hpe]
      exact List.mem_cons_self p rest
    · rw [if_neg hp] at h
      exact List.mem_cons_of_mem p (ih h)

theorem alookup_of_mem_nodup {β : Type} (l : List (Str × β)) (k : Str) (v : β)
    (hmem : (k, v) ∈ l) (hnd : (l.map Prod.fst).Nodup) : alookup l k = some v := by
  induction l with
  | nil => cases hmem
  | cons p rest ih =>
    rw [List.map_cons] at hnd
    rcases List.nodup_cons.1 hnd with ⟨hh, hrest⟩
    rcases List.mem_cons.1 hmem with h | h
    · rw [← h, alookup, if_pos rfl]
    · have hne : ¬ p.1 = k := by
        intro he
        exact hh (he ▸ (List.mem_map_of_mem Prod.fst h : (k, v).1 ∈ rest.map Prod.fst))
      rw [alookup, if_neg hne]
      exact ih h hrest

theorem alookup_perm {β : Type} (l1 l2 : List (Str × β)) (hperm : l1.Perm l2)
    (hnd : (l1.map Prod.fst).Nodup) : ∀ k, alookup l1 k = alookup l2 k := by
  intro k
  have hnd2 : (l2.map Prod.fst).Nodup := ((hperm.map Prod.fst).nodup_iff).1 hnd
  cases h1 : alookup l1 k with
  | none =>
    cases h2 : alookup l2 k with
    | none => rfl
    | some v =>
      have := alookup_some_mem l2 k v h2
      have hm1 : (k, v) ∈ l1 := hperm.mem_iff.2 this
      rw [alookup_of_mem_nodup l1 k v hm1 hnd] at h1
      cases h1
  | some v =>
    have hm2 : (k, v) ∈ l2 := hperm.mem_iff.1 (alookup_some_mem l1 k v h1)
    rw [alookup_of_mem_nodup l2 k v hm2 hnd2]

/-- Every nonempty well-formed level holds a blob at some segment path
(directories are hereditarily nonempty). -/
theorem exists_blob :
    ∀ (fuel : Nat) (e : TEntries), entsDepth e < fuel → WFlevel e → e ≠ .nil →
      ∃ s b, segsOk s ∧ lookupSegs e s = some b := by
  intro fuel
  induction fuel with
  | zero =>
    intro e hd
    exact absurd hd (Nat.not_lt_zero _)
  | succ f ih =>
    intro e hd hwf hne
    cases e with
    | nil => exact absurd rfl hne
    | cons n v rest =>
      have hWFe := hwf.2
      rw [WFe] at hWFe
      obtain ⟨hgn, hnev, hv, _⟩ := hWFe
      have helk : elookup (TEntries.cons n v rest) n = some v := by
        rw [elookup, if_pos rfl]
      cases v with
      | blob b =>
        exact ⟨[n], b, segsOk_single n hgn.1, lookupSegs_blob_single _ n b helk⟩
      | dir sub =>
        rw [WFv] at hv
        have hsubne : sub ≠ .nil := by
          cases sub with
          | nil =>
            rw [dirNonempty] at hnev
            exact hnev.elim
          | cons a b c => simp
        have hdsub : entsDepth sub < f := by
          have h1 : entsDepth (TEntries.cons n (TVal.dir sub) rest) =
              max (valDepth (TVal.dir sub)) (entsDepth rest) := rfl
          have h2 : valDepth (TVal.dir sub) = entsDepth sub + 1 := rfl
          omega
        obtain ⟨s, b, hs, hl⟩ := ih sub hdsub hv hsubne
        refine ⟨n :: s, b, (segsOk_cons_iff n s).2 ⟨hgn.1, Or.inr hs⟩, ?_⟩
        rw [lookupSegs_dir_head _ n sub s helk hs.1]
        exact hl

/-- Two well-formed trees equal as flat mappings serialize to the same sorted
entry list at every level (child ids agree recursively because subtree bytes
agree), hence to byte-identical tree objects. -/
theorem canon_eq (hash : Str → Str) :
    ∀ (fuel : Nat) (t1 t2 : TEntries),
      entsDepth t1 < fuel → entsDepth t2 < fuel →
      WFlevel t1 → WFlevel t2 →
      (∀ s, segsOk s → lookupSegs t1 s = lookupSegs t2 s) →
      pySorted entryLEb (entriesSpec hash t1) =
        pySorted entryLEb (entriesSpec hash t2) := by
  intro fuel
  induction fuel with
  | zero =>
    intro t1 t2 hd1
    exact absurd hd1 (Nat.not_lt_zero _)
  | succ f ih =>
    intro t1 t2 hd1 hd2 hwf1 hwf2 heq
    have key : ∀ (ta tb : TEntries), entsDepth ta < f + 1 → entsDepth tb < f + 1 →
        WFlevel ta → WFlevel tb →
        (∀ s, segsOk s → lookupSegs ta s = lookupSegs tb s) →
        ∀ x ∈ entriesSpec hash ta, x ∈ entriesSpec hash tb := by
      intro ta tb hda hdb hwa hwb he x hx
      obtain ⟨v, hmem, h21, h22⟩ := entriesSpec_mem hash ta x hx
      obtain ⟨hgn, hv, hnev⟩ := emem_good x.1 v ta hwa.2 hmem
      have hel : elookup ta x.1 = some v := elookup_of_emem x.1 v ta hwa.1 hmem
      cases v with
      | blob b =>
        have h1 : lookupSegs ta [x.1] = some b := lookupSegs_blob_single ta x.1 b hel
        have h2 : lookupSegs tb [x.1] = some b := by
          rw [← he [x.1] (segsOk_single x.1 hgn.1)]
          exact h1
        have helb : elookup tb x.1 = some (TVal.blob b) :=
          blob_of_lookupSegs_single tb x.1 b h2
        have h3 := entriesSpec_of_emem hash x.1 (TVal.blob b) tb
          (emem_of_elookup x.1 _ tb helb)
        rw [← h21, ← h22] at h3
        exact h3
      | dir sub1 =>
        rw [WFv] at hv
        have hsubne : sub1 ≠ .nil := by
          cases sub1 with
          | nil =>
            rw [dirNonempty] at hnev
            exact hnev.elim
          | cons a bb c => simp
        have hdsub1 : entsDepth sub1 < f := by
          have h4 : valDepth (TVal.dir sub1) ≤ entsDepth ta :=
            valDepth_le_of_elookup ta x.1 _ hel
          have h5 : valDepth (TVal.dir sub1) = entsDepth sub1 + 1 := rfl
          omega
        obtain ⟨s, b, hs, hl⟩ := exists_blob f sub1 hdsub1 hv hsubne
        have h1 : lookupSegs ta (x.1 :: s) = some b := by
          rw [lookupSegs_dir_head ta x.1 sub1 s hel hs.1]
          exact hl
        have h2 : lookupSegs tb (x.1 :: s) = some b := by
          rw [← he (x.1 :: s) ((segsOk_cons_iff x.1 s).2 ⟨hgn.1, Or.inr hs⟩)]
          exact h1
        obtain ⟨sub2, helk⟩ : ∃ sub2, elookup tb x.1 = some (TVal.dir sub2) := by
          cases helk : elookup tb x.1 with
          | none =>
            rw [lookupSegs_none_head tb x.1 s helk] at h2
            cases h2
          | some w =>
            cases w with
            | blob b2 =>
              cases s with
              | nil => exact absurd rfl hs.1
              | cons a r =>
                rw [lookupSegs_blob_cons2 tb x.1 b2 a r helk] at h2
                cases h2
            | dir sub2 => exact ⟨sub2, rfl⟩
        have hsub : ∀ s', segsOk s' → lookupSegs sub1 s' = lookupSegs sub2 s' := by
          intro s' hs'
          have h6 := he (x.1 :: s') ((segsOk_cons_iff x.1 s').2 ⟨hgn.1, Or.inr hs'⟩)
          rw [lookupSegs_dir_head ta x.1 sub1 s' hel hs'.1,
            lookupSegs_dir_head tb x.1 sub2 s' helk hs'.1] at h6
          exact h6
        have hdsub2 : entsDepth sub2 < f := by
          have h4 : valDepth (TVal.dir sub2) ≤ entsDepth tb :=
            valDepth_le_of_elookup tb x.1 _ helk
          have h5 : valDepth (TVal.dir sub2) = entsDepth sub2 + 1 := rfl
          omega
        have hwsub2 : WFlevel sub2 := by
          have h7 := (WFv_of_elookup tb x.1 _ hwb.2 helk).1
          rw [WFv] at h7
          exact h7
        have hih := ih sub1 sub2 hdsub1 hdsub2 hv hwsub2 hsub
        have hObj : dirObj hash sub1 = dirObj hash sub2 := by
          rw [dirObj, dirObj, serializeEntries, serializeEntries, hih]
        have hvo : valOid hash (TVal.dir sub1) = valOid hash (TVal.dir sub2) := by
          rw [valOid_dir, valOid_dir, hObj]
        have hvt : valType (TVal.dir sub1) = valType (TVal.dir sub2) := rfl
        have h3 := entriesSpec_of_emem hash x.1 (TVal.dir sub2) tb
          (emem_of_elookup x.1 _ tb helk)
        rw [← hvo, ← hvt, ← h21, ← h22] at h3
        exact h3
    have h12 := key t1 t2 hd1 hd2 hwf1 hwf2 heq
    have h21 := key t2 t1 hd2 hd1 hwf2 hwf1 (fun s hs => (heq s hs).symm)
    have hnd1 : (entriesSpec hash t1).Nodup := by
      have h8 := hwf1.1
      rw [← entriesSpec_names hash t1] at h8
      exact List.Nodup.of_map _ h8
    have hnd2 : (entriesSpec hash t2).Nodup := by
      have h8 := hwf2.1
      rw [← entriesSpec_names hash t2] at h8
      exact List.Nodup.of_map _ h8
    exact pySorted_eq_of_perm _ _ ((List.perm_ext_iff_of_nodup hnd1 hnd2).2
      (fun a => ⟨h12 a, h21 a⟩))

instance decGoodName (n : Str) : Decidable (goodName n) :=
  inferInstanceAs (Decidable (('/' : Char) ∉ n ∧ n ≠ ".".toList
    ∧ n ≠ "..".toList ∧ ∀ c ∈ n, isLineBreak c = false))

instance decGoodOid (o : Str) : Decidable (goodOid o) :=
  inferInstanceAs (Decidable ((' ' : Char) ∉ o ∧ ∀ c ∈ o, isLineBreak c = false))

/-- The tree-object buffers `write_tree` stores for an index, children first,
root last (empty when folding the index raises). -/
def wtObjs (hash : Str → Str) (M : List (Str × Str)) : List Str :=
  match index_as_tree M with
  | .ok t => entObjs hash t ++ [dirObj hash t]
  | .error _ => []

/-- An escaping digest stand-in: prefixes `h` and maps the separator bytes to
printable ones, so ids are nonempty, space- and newline-free, and injective. -/
def hashC4 (s : Str) : Str :=
  'h' :: s.map (fun c =>
    if c = ' ' then '_' else if c = '\n' then '.' else if c = nul then '0' else c)

/-- C4 (amended): for a flat mapping with distinct keys, valid dot-free
newline-free segments, well-formed blob ids, and no key a directory prefix of
another, `write_tree` succeeds and `get_tree` on the resulting root returns
exactly the mapping (the hash being id-like on the written tree objects). -/
theorem C4_roundtrip (hash : Str → Str) (st : Store) (M : List (Str × Str))
    (fuel : Nat)
    (hnodup : (M.map Prod.fst).Nodup)
    (hpf : ∀ p ∈ M.map Prod.fst, ∀ q ∈ M.map Prod.fst, p ≠ q →
      ¬ (pySplitOn '/' p <+: pySplitOn '/' q))
    (hnames : ∀ p ∈ M.map Prod.fst, ∀ seg ∈ pySplitOn '/' p, goodName seg)
    (hvals : ∀ v ∈ M.map Prod.snd, goodOid v)
    (hid : ∀ o ∈ wtObjs hash M, hash o ≠ [] ∧ goodOid (hash o))
    (hinj : ∀ o1 ∈ wtObjs hash M, ∀ o2 ∈ wtObjs hash M,
      hash o1 = hash o2 → o1 = o2)
    (hfuel : maxPathDepth M < fuel) :
    ∃ root st', write_tree hash M st = .ok (root, st')
      ∧ ∃ R, get_tree st' fuel root [] = .ok R
        ∧ (R.map Prod.fst).Nodup
        ∧ ∀ p, alookup R p = alookup M p := by
  obtain ⟨t, hfold, hinv, hwf, hdep⟩ := index_fold_spec M [] TEntries.nil
    hnodup hpf hnames hvals (fun s _ => lookupSegs_nil_entries s)
    ⟨List.nodup_nil, trivial⟩
  have hiat : index_as_tree M = .ok t := hfold
  have hwo : wtObjs hash M = entObjs hash t ++ [dirObj hash t] := by
    simp only [wtObjs, hiat]
  refine ⟨hash (dirObj hash t),
    writeObjs hash st (entObjs hash t ++ [dirObj hash t]), ?_, ?_⟩
  · simp only [write_tree, hiat, Bind.bind, Except.bind, writeDir_correspond]
  · have hst : ∀ o ∈ entObjs hash t ++ [dirObj hash t],
        alookup (writeObjs hash st (entObjs hash t ++ [dirObj hash t]))
          (hash o) = some o := by
      intro o ho
      refine alookup_writeObjs_mem hash _ o ho ?_ st
      intro o' ho' he
      exact hinj o' (by rw [hwo]; exact ho') o (by rw [hwo]; exact ho) he
    have hgood : ∀ o ∈ entObjs hash t ++ [dirObj hash t],
        hash o ≠ [] ∧ goodOid (hash o) :=
      fun o ho => hid o (by rw [hwo]; exact ho)
    have hdt : entsDepth t < fuel := by
      have h0 : entsDepth TEntries.nil = 0 := rfl
      omega
    obtain ⟨R, hget, hshape, hndR, hlookR⟩ := get_tree_spec hash _ fuel t []
      hwf hst hgood hdt
    refine ⟨R, hget, hndR, ?_⟩
    intro p
    have h1 := hlookR (pySplitOn '/' p) (segsOk_splitOn p)
    rw [List.nil_append, joinSegs_splitOn p] at h1
    have h2 := hinv (pySplitOn '/' p) (segsOk_splitOn p)
    rw [joinSegs_splitOn p, List.nil_append] at h2
    rw [h1, h2]

/-- A valid flat mapping (segments dot-free, slash-free, newline-free) that
the round trip loses: the later entry `a` overwrites the directory holding
`a/b`. -/
def cMbad : List (Str × Str) :=
  [("a/b".toList, "x".toList), ("a".toList, "y".toList)]

/-- C4 (counterexample): `cMbad` meets every condition the claim states, yet
write-then-read returns only `a`, dropping `a/b` — because `a` is a directory
prefix of `a/b`, a case the claim's conditions do not exclude. -/
theorem C4_counterexample :
    ((cMbad.map Prod.fst).Nodup
      ∧ (∀ p ∈ cMbad.map Prod.fst, ∀ seg ∈ pySplitOn '/' p, goodName seg)
      ∧ (∀ v ∈ cMbad.map Prod.snd, goodOid v))
    ∧ (write_tree hashC4 cMbad []).bind (fun rs => get_tree rs.2 2 rs.1 []) =
        .ok [("a".toList, "y".toList)]
    ∧ alookup cMbad "a/b".toList = some "x".toList
    ∧ alookup [("a".toList, "y".toList)] "a/b".toList = none := by
  refine ⟨⟨?_, ?_, ?_⟩, ?_, ?_, ?_⟩ <;> decide

/-- A valid prefix-free index used to witness the round trip. -/
def cMgood : List (Str × Str) :=
  [("a/b".toList, "x".toList), ("c".toList, "y".toList)]

theorem C4_roundtrip_witness :
    ((cMgood.map Prod.fst).Nodup ∧ maxPathDepth cMgood < 3)
    ∧ (∃ root st', write_tree hashC4 cMgood [] = .ok (root, st')
      ∧ ∃ R, get_tree st' 3 root [] = .ok R
        ∧ (R.map Prod.fst).Nodup
        ∧ ∀ p, alookup R p = alookup cMgood p) :=
  ⟨⟨by decide, by decide⟩,
   C4_roundtrip hashC4 [] cMgood 3 (by decide) (by decide) (by decide)
     (by decide) (by decide) (by decide) (by decide)⟩

/-- C6 (amended): tree bytes list the entries sorted by the `(name, id, kind)`
tuple; and for indexes with distinct keys none of which is a directory prefix
of another, any two indexes equal as mappings (permutations of each other)
fold to trees with byte-identical root tree objects, hence `write_tree`
returns the same root id. -/
theorem C6_canonical (hash : Str → Str) (M1 M2 : List (Str × Str))
    (st1 st2 : Store)
    (hnodup : (M1.map Prod.fst).Nodup)
    (hpf : ∀ p ∈ M1.map Prod.fst, ∀ q ∈ M1.map Prod.fst, p ≠ q →
      ¬ (pySplitOn '/' p <+: pySplitOn '/' q))
    (hnames : ∀ p ∈ M1.map Prod.fst, ∀ seg ∈ pySplitOn '/' p, goodName seg)
    (hvals : ∀ v ∈ M1.map Prod.snd, goodOid v)
    (hperm : M1.Perm M2) :
    (∀ es : List Entry3, ∃ es' : List Entry3, es'.Perm es
        ∧ es'.Pairwise (fun x y => entryLEb x y = true)
        ∧ serializeEntries es = (es'.map entryLine).flatten)
    ∧ ∃ t1 t2, index_as_tree M1 = .ok t1 ∧ index_as_tree M2 = .ok t2
        ∧ dirObj hash t1 = dirObj hash t2
        ∧ (write_tree hash M1 st1).map Prod.fst =
          (write_tree hash M2 st2).map Prod.fst := by
  refine ⟨fun es => ⟨pySorted entryLEb es, pySorted_perm entryLEb es,
    pySorted_pairwise entryLEb entryLEb_total entryLEb_trans es,
    by rw [serializeEntries]⟩, ?_⟩
  have hnodup2 : (M2.map Prod.fst).Nodup := ((hperm.map Prod.fst).nodup_iff).1 hnodup
  have hmemf : ∀ p, p ∈ M2.map Prod.fst → p ∈ M1.map Prod.fst :=
    fun p hp => (hperm.map Prod.fst).mem_iff.2 hp
  have hpf2 : ∀ p ∈ M2.map Prod.fst, ∀ q ∈ M2.map Prod.fst, p ≠ q →
      ¬ (pySplitOn '/' p <+: pySplitOn '/' q) :=
    fun p hp q hq => hpf p (hmemf p hp) q (hmemf q hq)
  have hnames2 : ∀ p ∈ M2.map Prod.fst, ∀ seg ∈ pySplitOn '/' p, goodName seg :=
    fun p hp => hnames p (hmemf p hp)
  have hvals2 : ∀ v ∈ M2.map Prod.snd, goodOid v :=
    fun v hv => hvals v ((hperm.map Prod.snd).mem_iff.2 hv)
  obtain ⟨t1, hw1, hinv1, hwf1, hdep1⟩ := index_fold_spec M1 [] TEntries.nil
    hnodup hpf hnames hvals (fun s _ => lookupSegs_nil_entries s)
    ⟨List.nodup_nil, trivial⟩
  obtain ⟨t2, hw2, hinv2, hwf2, hdep2⟩ := index_fold_spec M2 [] TEntries.nil
    hnodup2 hpf2 hnames2 hvals2 (fun s _ => lookupSegs_nil_entries s)
    ⟨List.nodup_nil, trivial⟩
  have hiat1 : index_as_tree M1 = .ok t1 := hw1
  have hiat2 : index_as_tree M2 = .ok t2 := hw2
  have heq : ∀ s, segsOk s → lookupSegs t1 s = lookupSegs t2 s := by
    intro s hs
    rw [hinv1 s hs, hinv2 s hs]
    exact alookup_perm M1 M2 hperm hnodup (joinSegs s)
  have hcanon := canon_eq hash (max (entsDepth t1) (entsDepth t2) + 1) t1 t2
    (by omega) (by omega) hwf1 hwf2 heq
  have hObj : dirObj hash t1 = dirObj hash t2 := by
    rw [dirObj, dirObj, serializeEntries, serializeEntries, hcanon]
  refine ⟨t1, t2, hiat1, hiat2, hObj, ?_⟩
  have hroot1 : (write_tree hash M1 st1).map Prod.fst =
      .ok (hash (dirObj hash t1)) := by
    simp only [write_tree, hiat1, Bind.bind, Except.bind, writeDir_correspond,
      Except.map]
  have hroot2 : (write_tree hash M2 st2).map Prod.fst =
      .ok (hash (dirObj hash t2)) := by
    simp only [write_tree, hiat2, Bind.bind, Except.bind, writeDir_correspond,
      Except.map]
  rw [hroot1, hroot2, hObj]

/-- C6 (counterexample): `cMbad.reverse` and `cMbad` are the same mapping in
two insertion orders; one order raises `TypeError` in the setdefault walk
while the other writes a tree, so the outputs are not byte-identical. -/
theorem C6_counterexample :
    (cMbad.reverse).Perm cMbad
    ∧ write_tree hashC4 (cMbad.reverse) [] = .error "TypeError"
    ∧ (write_tree hashC4 cMbad []).map Prod.fst ≠
      (write_tree hashC4 (cMbad.reverse) []).map Prod.fst := by
  refine ⟨List.reverse_perm cMbad, ?_, ?_⟩ <;> decide

/-- A prefix-free index and its reversal, witnessing order independence. -/
def cW1 : List (Str × Str) :=
  [("b".toList, "y".toList), ("a/c".toList, "x".toList)]

theorem C6_canonical_witness :
    (cW1.map Prod.fst).Nodup
    ∧ ((∀ es : List Entry3, ∃ es' : List Entry3, es'.Perm es
        ∧ es'.Pairwise (fun x y => entryLEb x y = true)
        ∧ serializeEntries es = (es'.map entryLine).flatten)
      ∧ ∃ t1 t2, index_as_tree cW1 = .ok t1
        ∧ index_as_tree cW1.reverse = .ok t2
        ∧ dirObj hashC4 t1 = dirObj hashC4 t2
        ∧ (write_tree hashC4 cW1 []).map Prod.fst =
          (write_tree hashC4 cW1.reverse []).map Prod.fst) :=
  ⟨by decide,
   C6_canonical hashC4 cW1 cW1.reverse [] [] (by decide) (by decide)
     (by decide) (by decide) (List.reverse_perm cW1).symm⟩

end Idiota
